import Mathlib

/-!
go-sentences: word splitting, line tokenisation and first-pass annotation.

A shallow embedding of `punkt/word_tokenizer.go`, `punkt/base.go` and
`punkt/language_vars.go`.

Go strings are byte sequences, so a string is a list of byte values.  The
source mixes byte lengths (`len(word)`, `word[:k]`) with rune counts
(`len([]rune(word))`, `len(strings.Split(tok, ""))`), hence the embedding
carries the UTF-8 decoder of the Go runtime.  Every slice expression is
bounds-checked: an out-of-range index makes the function return `none`.
-/

namespace Punkt

/-! ## Go strings and the runtime functions the source calls -/

/-- A Go string: its bytes, each a number below 256. -/
abbrev GoString := List Nat

/-- The replacement rune U+FFFD that the decoder yields for an invalid byte. -/
def RuneError : Nat := 0xFFFD

/-- Continuation-byte test of `unicode/utf8` (`locb <= b <= hicb`). -/
def isCont (b : Nat) : Bool := decide (0x80 ≤ b) && decide (b ≤ 0xBF)

/-- The table `acceptRanges` of `unicode/utf8`, lower bound: the least second
byte allowed after the lead byte `s0`. -/
def acceptLo (s0 : Nat) : Nat :=
  if s0 = 0xE0 then 0xA0 else if s0 = 0xF0 then 0x90 else 0x80

/-- The table `acceptRanges` of `unicode/utf8`, upper bound: the greatest second
byte allowed after the lead byte `s0`. -/
def acceptHi (s0 : Nat) : Nat :=
  if s0 = 0xED then 0x9F else if s0 = 0xF4 then 0x8F else 0xBF

/-- The function `utf8.DecodeRuneInString`: the first rune of `s` and its width
in bytes.  An invalid or truncated sequence decodes to `RuneError` of width 1,
the empty string to `RuneError` of width 0. -/
def DecodeRune (s : GoString) : Nat × Nat :=
  match s with
  | [] => (RuneError, 0)
  | s0 :: t =>
    if s0 < 0x80 then (s0, 1)
    else if s0 < 0xC2 then (RuneError, 1)
    else if s0 < 0xE0 then
      match t with
      | s1 :: _ =>
        if isCont s1 = true then ((s0 % 32) * 64 + s1 % 64, 2) else (RuneError, 1)
      | [] => (RuneError, 1)
    else if s0 < 0xF0 then
      match t with
      | s1 :: s2 :: _ =>
        if acceptLo s0 ≤ s1 ∧ s1 ≤ acceptHi s0 ∧ isCont s2 = true then
          ((s0 % 16) * 4096 + (s1 % 64) * 64 + s2 % 64, 3)
        else (RuneError, 1)
      | _ => (RuneError, 1)
    else if s0 < 0xF5 then
      match t with
      | s1 :: s2 :: s3 :: _ =>
        if acceptLo s0 ≤ s1 ∧ s1 ≤ acceptHi s0 ∧ isCont s2 = true ∧ isCont s3 = true then
          ((s0 % 8) * 262144 + (s1 % 64) * 4096 + (s2 % 64) * 64 + s3 % 64, 4)
        else (RuneError, 1)
      | _ => (RuneError, 1)
    else (RuneError, 1)

/-- The function `utf8.EncodeRune` as used by the conversion `string(r)`:
surrogates and out-of-range values are written as U+FFFD. -/
def EncodeRune (r : Nat) : GoString :=
  if r < 0x80 then [r]
  else if r < 0x800 then [0xC0 + r / 64, 0x80 + r % 64]
  else if (0xD800 ≤ r ∧ r < 0xE000) ∨ 0x10FFFF < r then [0xEF, 0xBF, 0xBD]
  else if r < 0x10000 then [0xE0 + r / 4096, 0x80 + (r / 64) % 64, 0x80 + r % 64]
  else [0xF0 + r / 262144, 0x80 + (r / 4096) % 64, 0x80 + (r / 64) % 64, 0x80 + r % 64]

/-- Decoding loop: `skip` counts the bytes still belonging to the rune decoded
last; at `skip = 0` the next rune is decoded at the current position and is
recorded with the bytes it spans. -/
def runeChunksAux : Nat → GoString → List (Nat × GoString)
  | _, [] => []
  | 0, b :: rest =>
    ((DecodeRune (b :: rest)).1, (b :: rest).take (DecodeRune (b :: rest)).2)
      :: runeChunksAux ((DecodeRune (b :: rest)).2 - 1) rest
  | k + 1, _ :: rest => runeChunksAux k rest

/-- The runes of `s` in order, each with its bytes (`for i, r := range s`). -/
def runeChunks (s : GoString) : List (Nat × GoString) := runeChunksAux 0 s

/-- The conversion `[]rune(s)`. -/
def toRunes (s : GoString) : List Nat := (runeChunks s).map Prod.fst

/-- The conversion `string(rs)` of a rune slice. -/
def ofRunes (rs : List Nat) : GoString := rs.flatMap EncodeRune

/-- A Lean string literal as the Go string with the same UTF-8 bytes. -/
def str (s : String) : GoString := ofRunes (s.toList.map Char.toNat)

/-- A slice expression `s[lo:hi]`; Go panics unless `0 <= lo <= hi <= len(s)`. -/
def goSlice {α : Type} (s : List α) (lo hi : Int) : Option (List α) :=
  if 0 ≤ lo ∧ lo ≤ hi ∧ hi ≤ (s.length : Int) then
    some ((s.take hi.toNat).drop lo.toNat)
  else none

/-- The function `strings.HasSuffix`. -/
def HasSuffix (s suffix : GoString) : Bool := suffix.isSuffixOf s

/-- The function `unicode.IsSpace`. -/
def IsSpace (r : Nat) : Bool :=
  decide (r = 0x09 ∨ r = 0x0A ∨ r = 0x0B ∨ r = 0x0C ∨ r = 0x0D ∨ r = 0x20 ∨ r = 0x85
    ∨ r = 0xA0 ∨ r = 0x1680 ∨ (0x2000 ≤ r ∧ r ≤ 0x200A) ∨ r = 0x2028 ∨ r = 0x2029
    ∨ r = 0x202F ∨ r = 0x205F ∨ r = 0x3000)

/-- Field-splitting loop of `strings.Fields`: `cur` is the field being read. -/
def fieldsLoop : GoString → List (Nat × GoString) → List GoString
  | cur, [] => if cur = [] then [] else [cur]
  | cur, (r, c) :: rest =>
    if IsSpace r then (if cur = [] then [] else [cur]) ++ fieldsLoop [] rest
    else fieldsLoop (cur ++ c) rest

/-- The function `strings.Fields`: the maximal runs of runes that are not
white space. -/
def Fields (s : GoString) : List GoString := fieldsLoop [] (runeChunks s)

/-- The function `strings.Split(s, sep)` for a one-byte separator. -/
def splitByte (sep : Nat) : GoString → List GoString
  | [] => [[]]
  | b :: rest =>
    if b = sep then [] :: splitByte sep rest
    else
      match splitByte sep rest with
      | [] => [[b]]
      | l :: ls => (b :: l) :: ls

/-- The function `strings.Trim(s, cutset)` for a one-byte cutset. -/
def trimByte (c : Nat) (s : GoString) : GoString :=
  ((s.dropWhile (fun b => b == c)).reverse.dropWhile (fun b => b == c)).reverse

/-- Search loop of `strings.Index`. -/
def indexAux (substr : GoString) : GoString → Option Nat
  | [] => if substr = [] then some 0 else none
  | b :: rest =>
    if substr.isPrefixOf (b :: rest) then some 0
    else (indexAux substr rest).map (fun n => n + 1)

/-- The function `strings.Index`: the first byte offset of `substr` in `s`,
or -1. -/
def Index (s substr : GoString) : Int :=
  match indexAux substr s with
  | some n => (n : Int)
  | none => -1

/-- The function `unicode.ToLower` on the capitals of ASCII, Latin-1, Latin
Extended-A, Greek (U+0386 to U+03AB) and Cyrillic (U+0400 to U+042F), by the
ranges of the table `unicode.CaseRanges`; the case tables of the remaining
scripts are not reproduced (such runes map to themselves). -/
def unicodeToLower (r : Nat) : Nat :=
  if (0x41 ≤ r ∧ r ≤ 0x5A) ∨ (0xC0 ≤ r ∧ r ≤ 0xDE ∧ r ≠ 0xD7) then r + 32
  else if r = 0x130 then 0x69
  else if r = 0x178 then 0xFF
  else if ((0x100 ≤ r ∧ r ≤ 0x12F) ∨ (0x132 ≤ r ∧ r ≤ 0x137) ∨ (0x14A ≤ r ∧ r ≤ 0x177))
      ∧ r % 2 = 0 then r + 1
  else if ((0x139 ≤ r ∧ r ≤ 0x148) ∨ (0x179 ≤ r ∧ r ≤ 0x17E)) ∧ r % 2 = 1 then r + 1
  else if r = 0x386 then r + 38
  else if 0x388 ≤ r ∧ r ≤ 0x38A then r + 37
  else if r = 0x38C then r + 64
  else if r = 0x38E ∨ r = 0x38F then r + 63
  else if (0x391 ≤ r ∧ r ≤ 0x3A1) ∨ (0x3A3 ≤ r ∧ r ≤ 0x3AB) then r + 32
  else if 0x400 ≤ r ∧ r ≤ 0x40F then r + 80
  else if 0x410 ≤ r ∧ r ≤ 0x42F then r + 32
  else r

/-- The function `strings.ToLower`: every rune mapped and re-encoded, an invalid
byte becoming U+FFFD. -/
def ToLower (s : GoString) : GoString := ofRunes ((toRunes s).map unicodeToLower)

/-! ## The patterns of `word_tokenizer.go` and `language_vars.go` -/

/-- Length of the run of bytes equal to `c` at the start of `s`. -/
def runLength (c : Nat) : GoString → Nat
  | [] => 0
  | b :: rest => if b = c then runLength c rest + 1 else 0

/-- The Perl class `\s` of Go regular expressions: tab, line feed, form feed,
carriage return and space. -/
def reSpace (r : Nat) : Bool :=
  decide (r = 0x09 ∨ r = 0x0A ∨ r = 0x0C ∨ r = 0x0D ∨ r = 0x20)

/-- Number of consecutive groups `\.\s` at the start of `s`. -/
def dotSpaceRuns : GoString → Nat
  | a :: b :: rest => if a = 0x2E ∧ reSpace b = true then dotSpaceRuns rest + 1 else 0
  | _ => 0

/-- Match of `(?:\.\s){2,}\.` at the start of `s`, as a length.  The greedy
repetition takes `n` groups; when no period follows them it gives one group
back, whose period then closes the match. -/
def matchDotSpace (s : GoString) : Option Nat :=
  if 2 ≤ dotSpaceRuns s ∧ (s.drop (2 * dotSpaceRuns s)).head? = some 0x2E then
    some (2 * dotSpaceRuns s + 1)
  else if 3 ≤ dotSpaceRuns s then some (2 * dotSpaceRuns s - 1)
  else none

/-- Match of `\.\S` at the start of `s`, as a length: a period and one rune
outside `\s` (an invalid byte counts as the rune U+FFFD of width 1). -/
def matchDotNonSpace : GoString → Option Nat
  | a :: b :: rest =>
    if a = 0x2E ∧ reSpace (DecodeRune (b :: rest)).1 = false then
      some (1 + (DecodeRune (b :: rest)).2)
    else none
  | _ => none

/-- Match of the ellipsis alternatives `\.{2,}|(?:\.\s){2,}\.` at the start of
`s`, as a length. -/
def reEllipsisAt (s : GoString) : Option Nat :=
  if 2 ≤ runLength 0x2E s then some (runLength 0x2E s)
  else matchDotSpace s

/-- Match of the pattern `(?:\-{2,}|\.{2,}|(?:\.\s){2,}\.)` of
`PunktLanguageVars.reMultiCharPunct` at the start of `s`, as a length; the
alternatives are tried in order and each repetition is greedy. -/
def reMultiCharPunctAt (s : GoString) : Option Nat :=
  if 2 ≤ runLength 0x2D s then some (runLength 0x2D s)
  else reEllipsisAt s

/-- Match of `ReMultiCharPunct`, the pattern
`(?:\-{2,}|\.{2,}|(?:\.\s){2,}\.)|(\.\S)` of `word_tokenizer.go`, at the start
of `s`, as a length. -/
def ReMultiCharPunctAt (s : GoString) : Option Nat :=
  match reMultiCharPunctAt s with
  | some n => some n
  | none => matchDotNonSpace s

/-- Scan of `FindStringIndex`: the leftmost position at which `matchAt` succeeds,
as the pair (start, end); `i` is the offset of `s` in the searched string. -/
def findFrom (matchAt : GoString → Option Nat) (i : Nat) : GoString → Option (Nat × Nat)
  | [] => none
  | b :: rest =>
    match matchAt (b :: rest) with
    | some n => some (i, i + n)
    | none => findFrom matchAt (i + 1) rest

/-- The call `multi.FindStringIndex(word)` for a pattern matching no empty string. -/
def FindStringIndex (matchAt : GoString → Option Nat) (s : GoString) : Option (Nat × Nat) :=
  findFrom matchAt 0 s

/-! ## Data model -/

/-- The struct `PairToken` of `word_tokenizer.go`. -/
structure PairToken where
  First : GoString
  Second : GoString
  deriving DecidableEq, Repr

/-- Modelled from the spec: the struct `DefaultToken` is declared outside the
given sources; these are the attributes the spec lists for a Token. -/
structure DefaultToken where
  Tok : GoString
  ParaStart : Bool
  LineStart : Bool
  PeriodFinal : Bool
  SentBreak : Bool
  Abbr : Bool
  Ellipsis : Bool
  deriving DecidableEq, Repr

/-- Modelled from the spec: the constructor `NewToken` is declared outside the
given sources; it stores the raw text, derives `PeriodFinal` (true iff the text
ends with a period) and leaves every flag false. -/
def NewToken (token : GoString) : DefaultToken :=
  { Tok := token, ParaStart := false, LineStart := false,
    PeriodFinal := HasSuffix token [0x2E],
    SentBreak := false, Abbr := false, Ellipsis := false }

/-- Modelled from the spec: the method `IsEllipsis` is declared outside the given
sources; a token is an ellipsis when its text matches the ellipsis pattern of the
multi-character punctuation, two or more periods or the group period-space
repeated twice or more and closed by a period (so every text ending in two or
more periods is one). -/
def DefaultToken.IsEllipsis (t : DefaultToken) : Bool :=
  (FindStringIndex reEllipsisAt t.Tok).isSome

/-- Modelled from the spec: the struct `Language` embedded in `Base` is declared
outside the given sources; it is the Pattern Config, of which `base.go` reads the
sentence-end characters (a slice of strings) and the non-word character class
(here the runes of the class). -/
structure Language where
  sentEndChars : List GoString
  reNonWordChars : List Nat

/-- Modelled from the spec: the default Pattern Config, with sentence-end
characters `.?!` and the non-word class that `NewPunktLanguageVars` also uses,
`(?:[?!)\";}\]\*:@\'\({\[])`. -/
def NewLanguage : Language :=
  { sentEndChars := [[0x2E], [0x3F], [0x21]],
    reNonWordChars := [0x3F, 0x21, 0x29, 0x22, 0x3B, 0x7D, 0x5D, 0x2A, 0x3A, 0x40, 0x27,
      0x28, 0x7B, 0x5B] }

/-- The struct `Base`: the Pattern Config together with the abbreviation oracle
`IsAbbr(stem, lastHyphenSegment)` that the embedded `Storage` provides. -/
structure Base extends Language where
  IsAbbr : GoString → GoString → Bool

/-- A token pointer `*DefaultToken`: an address, or `none` for `nil`. -/
abbrev TokenPtr := Option Nat

/-! ## `word_tokenizer.go` -/

/-- The table `endPuncts`: `:`, `,`, `?`, `?"` and `.)`. -/
def endPuncts : List GoString := [[0x3A], [0x2C], [0x3F], [0x3F, 0x22], [0x2E, 0x29]]

/-- One round of the loop over `endPuncts` (lines 31-41): `acc` is the pair
(first, second) so far, `chars` is `[]rune(word)`. -/
def endPunctStep (word : GoString) (chars : List Nat) (acc : GoString × GoString)
    (punct : GoString) : Option (GoString × GoString) :=
  if HasSuffix word punct then
    if punct.length > 1 then
      match goSlice chars 0 ((chars.length : Int) - 2),
          goSlice chars ((chars.length : Int) - 2) chars.length with
      | some a, some b => some (ofRunes a, ofRunes b)
      | _, _ => none
    else
      match goSlice chars 0 ((chars.length : Int) - 1),
          goSlice chars ((chars.length : Int) - 1) chars.length with
      | some a, some b => some (ofRunes a, ofRunes b)
      | _, _ => none
  else some acc

/-- The multi-character-punctuation step (lines 43-57) for a match `[s, e)`. -/
def multiSplit (word : GoString) (chars : List Nat) (s e : Nat) : Option PairToken :=
  if HasSuffix word [0x2E] ∧ (e ≠ word.length ∨ s + e = word.length) then
    match goSlice word 0 ((chars.length : Int) - 1) with
    | some first => some ⟨first, [0x2E]⟩
    | none => none
  else if e = word.length then
    match goSlice word 0 s, goSlice word s word.length with
    | some first, some second => some ⟨first, second⟩
    | _, _ => none
  else
    match goSlice word 0 e, goSlice word e word.length with
    | some first, some second => some ⟨first, second⟩
    | _, _ => none

/-- The body of the loop of `WordTokenizer` for one word of length other than 1
(lines 27-59). -/
def splitWord (word : GoString) : Option PairToken :=
  match endPuncts.foldlM (endPunctStep word (toRunes word)) (word, []) with
  | none => none
  | some (first, second) =>
    match FindStringIndex ReMultiCharPunctAt word with
    | none => some ⟨first, second⟩
    | some (s, e) => multiSplit word (toRunes word) s e

/-- The loop of `WordTokenizer` over the words, `tokens` being the pairs
appended so far. -/
def wordLoop : List GoString → List PairToken → Option (List PairToken)
  | [], tokens => some tokens
  | word :: rest, tokens =>
    if word.length = 1 then wordLoop rest tokens
    else
      match splitWord word with
      | none => none
      | some token => wordLoop rest (tokens ++ [token])

/-- The function `WordTokenizer` of `word_tokenizer.go`; `none` stands for a
run-time panic. -/
def WordTokenizer (text : GoString) : Option (List PairToken) :=
  wordLoop (Fields text) []

/-! ## `base.go` -/

/-- The call `nonword.MatchString(s)` of `AddToken`, for the pattern made of the
non-word class and `ReMultiCharPunct` joined by `|`. -/
def nonwordMatch (p : Base) (s : GoString) : Bool :=
  (toRunes s).any (fun r => decide (r ∈ p.reNonWordChars))
    || (FindStringIndex ReMultiCharPunctAt s).isSome

/-- The method `Base.AddToken`. -/
def AddToken (p : Base) (tokens : List DefaultToken) (pairTok : PairToken)
    (parastart linestart : Bool) : List DefaultToken :=
  if nonwordMatch p pairTok.Second = true ∨ HasSuffix pairTok.Second [0x2C] = true then
    tokens ++ [{ NewToken pairTok.First with ParaStart := parastart, LineStart := linestart },
      NewToken pairTok.Second]
  else
    tokens ++ [{ NewToken (pairTok.First ++ pairTok.Second) with
      ParaStart := parastart, LineStart := linestart }]

/-- The inner loop of `TokenizeWords` (lines 58-65) over the pairs of one line;
the state is the token list and the pending paragraph-start flag. -/
def lineLoop (p : Base) : Nat → List PairToken → List DefaultToken × Bool →
    List DefaultToken × Bool
  | _, [], st => st
  | index, lineTok :: rest, (tokens, parastart) =>
    if index = 0 then
      lineLoop p (index + 1) rest (AddToken p tokens lineTok parastart true, false)
    else
      lineLoop p (index + 1) rest (AddToken p tokens lineTok parastart false, parastart)

/-- The outer loop of `TokenizeWords` (lines 53-67) over the lines. -/
def linesLoop (p : Base) : List GoString → List DefaultToken × Bool →
    Option (List DefaultToken)
  | [], (tokens, _) => some tokens
  | line :: rest, (tokens, parastart) =>
    if trimByte 0x20 line = [] ∨ line = [0x20] then linesLoop p rest (tokens, true)
    else
      match WordTokenizer line with
      | none => none
      | some lineToks => linesLoop p rest (lineLoop p 0 lineToks (tokens, parastart))

/-- The method `Base.TokenizeWords`; `none` stands for a run-time panic. -/
def TokenizeWords (p : Base) (text : GoString) : Option (List DefaultToken) :=
  linesLoop p (splitByte 0x0A text) ([], false)

/-- The method `Base.firstPassAnnotation`, returning the token as it is after
the call; `none` stands for a run-time panic.  The length of
`strings.Split(token.Tok, "")` is the number of runes of the text. -/
def firstPassAnnotation (p : Base) (token : DefaultToken) : Option DefaultToken :=
  if Index p.sentEndChars.flatten token.Tok ≠ -1 then
    some { token with SentBreak := true }
  else if token.IsEllipsis = true then
    some { token with Ellipsis := true }
  else if token.PeriodFinal = true ∧ HasSuffix token.Tok [0x2E, 0x2E] = false then
    match goSlice token.Tok 0 (((toRunes token.Tok).length : Int) - 1) with
    | none => none
    | some stem =>
      match (splitByte 0x2D (ToLower stem)).getLast? with
      | none => none
      | some tokLastHyphEl =>
        if p.IsAbbr (ToLower stem) tokLastHyphEl = true then
          some { token with Abbr := true }
        else
          some { token with SentBreak := true }
  else some token

/-- The method `Base.AnnotateFirstPass`: the loop applying the first-pass
annotation to every token in order. -/
def AnnotateFirstPass (p : Base) : List DefaultToken → Option (List DefaultToken)
  | [] => some []
  | augTok :: rest =>
    match firstPassAnnotation p augTok with
    | none => none
    | some r =>
      match AnnotateFirstPass p rest with
      | none => none
      | some out => some (r :: out)

/-- The loop of `pairIter` (lines 120-126); tokens are compared as pointers. -/
def pairLoop : TokenPtr → List TokenPtr → List (TokenPtr × TokenPtr) →
    List (TokenPtr × TokenPtr)
  | prevToken, [], pairTokens => pairTokens ++ [(prevToken, none)]
  | prevToken, tok :: rest, pairTokens =>
    if prevToken = tok then pairLoop prevToken rest pairTokens
    else pairLoop tok rest (pairTokens ++ [(prevToken, tok)])

/-- The method `Base.pairIter`; `tokens[0]` panics on an empty slice, which is
the result `none`. -/
def pairIter (tokens : List TokenPtr) : Option (List (TokenPtr × TokenPtr)) :=
  match tokens with
  | [] => none
  | prevToken :: _ => some (pairLoop prevToken tokens [])

/-- The Base with the default Pattern Config and the given abbreviation oracle. -/
def baseWith (IsAbbr : GoString → GoString → Bool) : Base :=
  { NewLanguage with IsAbbr := IsAbbr }

/-- The pipeline `p.AnnotateFirstPass(p.TokenizeWords(text))`. -/
def tokenizeAndAnnotate (p : Base) (text : GoString) : Option (List DefaultToken) :=
  match TokenizeWords p text with
  | none => none
  | some tokens => AnnotateFirstPass p tokens

/-- A token as the tokenizer leaves it: `PeriodFinal` derived from the text by
`NewToken` and none of the three first-pass flags set. -/
def DefaultToken.fresh (t : DefaultToken) : Prop :=
  t.PeriodFinal = HasSuffix t.Tok [0x2E] ∧ t.SentBreak = false ∧ t.Abbr = false
    ∧ t.Ellipsis = false

/-- The function `strings.Join(lines, "\n")`: the text whose physical lines are
`lines`. -/
def joinLines : List GoString → GoString
  | [] => []
  | [l] => l
  | l :: l2 :: rest => l ++ 0x0A :: joinLines (l2 :: rest)

/-- The test `string([]rune(s)) == s`: the conversion to runes and back gives the
string again, which is the case exactly when `s` is valid UTF-8 (an invalid byte
comes back as the three bytes of U+FFFD). -/
def validUTF8 (s : GoString) : Prop := ofRunes (toRunes s) = s

/-! ## `language_vars.go` -/

/-- The struct `WordToken` of `language_vars.go`. -/
structure WordToken where
  First : GoString
  Second : GoString
  deriving DecidableEq, Repr

/-- The struct `PunktLanguageVars`, reduced to what its `WordTokenizer` reads: the
non-word character class `reNonWordChars`, given by its runes.  The fields are
unexported and `NewPunktLanguageVars` is their only constructor, so the other
pattern read, `reMultiCharPunct`, is always `(?:\-{2,}|\.{2,}|(?:\.\s){2,}\.)`. -/
structure PunktLanguageVars where
  reNonWordChars : List Nat

/-- The constructor `NewPunktLanguageVars`: the class
`(?:[?!)\";}\]\*:@\'\({\[])`. -/
def NewPunktLanguageVars : PunktLanguageVars :=
  { reNonWordChars := [0x3F, 0x21, 0x29, 0x22, 0x3B, 0x7D, 0x5D, 0x2A, 0x3A, 0x40, 0x27,
      0x28, 0x7B, 0x5B] }

/-- Match of the joined pattern `reNonWordChars|reMultiCharPunct` at the start of
`s`, as a length: one rune of the class, or else the multi-character
punctuation. -/
def PunktLanguageVars.nonwordAt (p : PunktLanguageVars) (s : GoString) : Option Nat :=
  if s ≠ [] ∧ (DecodeRune s).1 ∈ p.reNonWordChars then some (DecodeRune s).2
  else reMultiCharPunctAt s

/-- Scan of `FindStringIndex` for a pattern that tests a rune: the positions
tried are the rune boundaries, `skip` counting the bytes left of the rune at
which the last attempt was made. -/
def findFromRunes (matchAt : GoString → Option Nat) : Nat → Nat → GoString →
    Option (Nat × Nat)
  | _, _, [] => none
  | 0, i, b :: rest =>
    match matchAt (b :: rest) with
    | some n => some (i, i + n)
    | none => findFromRunes matchAt ((DecodeRune (b :: rest)).2 - 1) (i + 1) rest
  | k + 1, i, _ :: rest => findFromRunes matchAt k (i + 1) rest

/-- Lines 110-116 of `language_vars.go`: `first` is empty when tested, so the pair
starts as the first byte of the word and the rest. -/
def PunktLanguageVars.firstByteStep (word : GoString) : Option (GoString × GoString) :=
  match goSlice word 0 1, goSlice word 1 word.length with
  | some first, some second => some (first, second)
  | _, _ => none

/-- Lines 118-122: the split at the leftmost match of the non-word pattern. -/
def PunktLanguageVars.punctStep (p : PunktLanguageVars) (word : GoString)
    (acc : GoString × GoString) : Option (GoString × GoString) :=
  match findFromRunes p.nonwordAt 0 0 word with
  | none => some acc
  | some (a, _) =>
    match goSlice word 0 a, goSlice word a word.length with
    | some first, some second => some (first, second)
    | _, _ => none

/-- Lines 124-127: the split before a final comma. -/
def PunktLanguageVars.commaStep (word : GoString) (acc : GoString × GoString) :
    Option (GoString × GoString) :=
  if HasSuffix word [0x2C] = true then
    match goSlice word 0 ((word.length : Int) - 1),
        goSlice word ((word.length : Int) - 1) word.length with
    | some first, some second => some (first, second)
    | _, _ => none
  else some acc

/-- Lines 129-143: the multi-character-punctuation step. -/
def PunktLanguageVars.multiStep (word : GoString) (acc : GoString × GoString) :
    Option WordToken :=
  match FindStringIndex reMultiCharPunctAt word with
  | none => some ⟨acc.1, acc.2⟩
  | some (s, e) =>
    if HasSuffix word [0x2E] = true ∧ (e ≠ word.length ∨ s + e = word.length) then
      match goSlice word 0 ((word.length : Int) - 1) with
      | some first => some ⟨first, [0x2E]⟩
      | none => none
    else if e = word.length then
      match goSlice word 0 s, goSlice word s word.length with
      | some first, some second => some ⟨first, second⟩
      | _, _ => none
    else
      match goSlice word 0 e, goSlice word e word.length with
      | some first, some second => some ⟨first, second⟩
      | _, _ => none

/-- The body of the loop of `PunktLanguageVars.WordTokenizer` for one word of
length other than 1 (lines 110-145). -/
def PunktLanguageVars.splitWord (p : PunktLanguageVars) (word : GoString) :
    Option WordToken :=
  match PunktLanguageVars.firstByteStep word with
  | none => none
  | some acc0 =>
    match p.punctStep word acc0 with
    | none => none
    | some acc1 =>
      match PunktLanguageVars.commaStep word acc1 with
      | none => none
      | some acc2 => PunktLanguageVars.multiStep word acc2

/-- The loop of `PunktLanguageVars.WordTokenizer` over the words. -/
def PunktLanguageVars.wordLoop (p : PunktLanguageVars) :
    List GoString → List WordToken → Option (List WordToken)
  | [], tokens => some tokens
  | word :: rest, tokens =>
    if word.length = 1 then p.wordLoop rest tokens
    else
      match p.splitWord word with
      | none => none
      | some token => p.wordLoop rest (tokens ++ [token])

/-- The method `PunktLanguageVars.WordTokenizer`; `none` stands for a run-time
panic. -/
def PunktLanguageVars.WordTokenizer (p : PunktLanguageVars) (text : GoString) :
    Option (List WordToken) :=
  p.wordLoop (Fields text) []

/-! ## How a call that does not return ends -/

/-- The ways a call can fail.  `indexOutOfRange` is the run-time panic of an index
expression `xs[i]`; `emptyInput` is modelled from the spec: the EmptyInput error
of its error taxonomy, which no code under the sources constructs or returns. -/
inductive Failure where
  | indexOutOfRange (index length : Nat)
  | emptyInput
  deriving DecidableEq, Repr

/-- The result of a call: the value returned, or the failure that ended it. -/
inductive Outcome (α : Type) where
  | returned (a : α)
  | failed (f : Failure)

/-- The method `Base.pairIter` with the failure spelled out: `tokens[0]` on an
empty slice panics with index 0 out of range for length 0; the function has no
error result. -/
def pairIterOutcome (tokens : List TokenPtr) : Outcome (List (TokenPtr × TokenPtr)) :=
  match tokens with
  | [] => Outcome.failed (Failure.indexOutOfRange 0 0)
  | prevToken :: _ => Outcome.returned (pairLoop prevToken tokens [])

/-! ## Properties stated over the lines of a text -/

/-- The blank-line test of `TokenizeWords` (line 54). -/
def isBlankLine (line : GoString) : Prop := trimByte 0x20 line = [] ∨ line = [0x20]

/-- What the line-start claim says of the tokens `g` that one physical line
contributes: a line that is skipped as blank or yields no word pair contributes
none; otherwise the first token is the first token made from the line's first
word pair and has LineStart true, and every other token of the line has
LineStart false. -/
def lineStartGroup (p : Base) (line : GoString) (g : List DefaultToken) : Prop :=
  (isBlankLine line ∧ g = [])
    ∨ (¬ isBlankLine line ∧ ∃ prs, WordTokenizer line = some prs
        ∧ ((prs = [] ∧ g = [])
            ∨ ∃ pr rest t ts parastart, prs = pr :: rest ∧ g = t :: ts
                ∧ (AddToken p [] pr parastart true).head? = some t
                ∧ t.LineStart = true ∧ ∀ u ∈ ts, u.LineStart = false))

/-! ## Helper lemmas on the runtime functions -/

theorem acceptLo_ge (s0 : Nat) : 0x80 ≤ acceptLo s0 := by
  unfold acceptLo
  split_ifs <;> omega

theorem DecodeRune_width_le (s : GoString) : (DecodeRune s).2 ≤ s.length := by
  unfold DecodeRune
  repeat' split
  all_goals simp

theorem DecodeRune_skipped (b : Nat) (rest : GoString) :
    ∀ c ∈ rest.take ((DecodeRune (b :: rest)).2 - 1), 0x80 ≤ c := by
  have hlo := acceptLo_ge b
  unfold DecodeRune
  simp only
  repeat' split
  all_goals simp_all [isCont]
  all_goals omega

theorem runeChunksAux_length_le : ∀ (s : GoString) (k : Nat),
    (runeChunksAux k s).length ≤ s.length := by
  intro s
  induction s with
  | nil => intro k; simp [runeChunksAux]
  | cons b rest ih =>
    intro k
    cases k with
    | zero =>
      simp only [runeChunksAux, List.length_cons]
      have := ih ((DecodeRune (b :: rest)).2 - 1)
      omega
    | succ k =>
      simp only [runeChunksAux, List.length_cons]
      have := ih k
      omega

theorem toRunes_length_le (s : GoString) : (toRunes s).length ≤ s.length := by
  simp only [toRunes, runeChunks, List.length_map]
  exact runeChunksAux_length_le s 0

theorem toRunes_length_pos (s : GoString) (h : s ≠ []) : 1 ≤ (toRunes s).length := by
  cases s with
  | nil => exact absurd rfl h
  | cons b rest => simp [toRunes, runeChunks, runeChunksAux]

theorem goSlice_eq_some {α : Type} (s : List α) (lo hi : Int) (h0 : 0 ≤ lo) (h1 : lo ≤ hi)
    (h2 : hi ≤ (s.length : Int)) :
    goSlice s lo hi = some ((s.take hi.toNat).drop lo.toNat) := by
  simp [goSlice, h0, h1, h2]

theorem ne_nil_of_HasSuffix (s : GoString) (c : Nat) (h : HasSuffix s [c] = true) : s ≠ [] := by
  intro hs
  subst hs
  simp [HasSuffix, List.isSuffixOf] at h

/-- Every single-byte character of a string is a rune of its own: the decoder
skips continuation bytes only. -/
theorem countP_le_runeChunksAux : ∀ (s : GoString) (k : Nat),
    (∀ c ∈ s.take k, 0x80 ≤ c) →
    s.countP (fun b => decide (b < 0x80)) ≤ (runeChunksAux k s).length := by
  intro s
  induction s with
  | nil => intro k _; simp
  | cons b rest ih =>
    intro k hk
    cases k with
    | zero =>
      simp only [runeChunksAux, List.length_cons, List.countP_cons]
      have := ih _ (DecodeRune_skipped b rest)
      split_ifs <;> omega
    | succ k =>
      have hb : 0x80 ≤ b := hk b (by simp)
      have hr : ∀ c ∈ rest.take k, 0x80 ≤ c := fun c hc => hk c (by simp [hc])
      have := ih k hr
      simp only [runeChunksAux, List.countP_cons]
      have : ¬ (b < 0x80) := by omega
      simp only [this, decide_False, Bool.false_eq_true, if_false]
      omega

theorem toRunes_length_of_suffix2 (word : GoString) (a b : Nat) (ha : a < 0x80)
    (hb : b < 0x80) (h : HasSuffix word [a, b] = true) : 2 ≤ (toRunes word).length := by
  obtain ⟨pre, rfl⟩ := List.isSuffixOf_iff_suffix.mp h
  have h1 := countP_le_runeChunksAux (pre ++ [a, b]) 0 (by simp)
  simp only [toRunes, runeChunks, List.length_map]
  simp [List.countP_append, List.countP_cons, ha, hb] at h1
  omega

theorem foldlM_isSome {α β : Type} (f : β → α → Option β) :
    ∀ (l : List α) (acc : β), (∀ x ∈ l, ∀ a, ∃ r, f a x = some r) →
      ∃ r, l.foldlM f acc = some r := by
  intro l
  induction l with
  | nil => intro acc _; exact ⟨acc, rfl⟩
  | cons x rest ih =>
    intro acc h
    obtain ⟨r, hr⟩ := h x (List.mem_cons_self _ _) acc
    obtain ⟨r2, hr2⟩ := ih r (fun y hy => h y (List.mem_cons_of_mem _ hy))
    exact ⟨r2, by simp [List.foldlM_cons, hr, hr2]⟩

theorem endPunctStep_isSome (word : GoString) (punct : GoString) (hp : punct ∈ endPuncts)
    (acc : GoString × GoString) :
    ∃ r, endPunctStep word (toRunes word) acc punct = some r := by
  unfold endPunctStep
  by_cases hs : HasSuffix word punct = true
  · rw [if_pos hs]
    have h1 : 1 ≤ (toRunes word).length := by
      apply toRunes_length_pos
      rintro rfl
      simp only [endPuncts, List.mem_cons, List.mem_singleton, List.not_mem_nil, or_false] at hp
      rcases hp with rfl | rfl | rfl | rfl | rfl <;> simp [HasSuffix, List.isSuffixOf] at hs
    by_cases hl : punct.length > 1
    · rw [if_pos hl]
      have h2 : 2 ≤ (toRunes word).length := by
        simp only [endPuncts, List.mem_cons, List.mem_singleton, List.not_mem_nil, or_false] at hp
        rcases hp with rfl | rfl | rfl | rfl | rfl
        · simp at hl
        · simp at hl
        · simp at hl
        · exact toRunes_length_of_suffix2 word _ _ (by decide) (by decide) hs
        · exact toRunes_length_of_suffix2 word _ _ (by decide) (by decide) hs
      rw [goSlice_eq_some _ 0 _ (le_refl _) (by omega) (by omega),
        goSlice_eq_some _ _ _ (by omega) (by omega) (le_refl _)]
      exact ⟨_, rfl⟩
    · rw [if_neg hl]
      rw [goSlice_eq_some _ 0 _ (le_refl _) (by omega) (by omega),
        goSlice_eq_some _ _ _ (by omega) (by omega) (le_refl _)]
      exact ⟨_, rfl⟩
  · rw [if_neg hs]
    exact ⟨acc, rfl⟩


theorem runLength_le (c : Nat) : ∀ s : GoString, runLength c s ≤ s.length := by
  intro s
  induction s with
  | nil => simp [runLength]
  | cons b rest ih =>
    unfold runLength
    split_ifs
    · simp; omega
    · simp

theorem dotSpaceRuns_le : ∀ (n : Nat) (s : GoString), s.length ≤ n →
    2 * dotSpaceRuns s ≤ s.length := by
  intro n
  induction n with
  | zero =>
    intro s hs
    have : s = [] := List.length_eq_zero.mp (by omega)
    subst this
    simp [dotSpaceRuns]
  | succ n ih =>
    intro s hs
    match s with
    | [] => simp [dotSpaceRuns]
    | [_] => simp [dotSpaceRuns]
    | a :: b :: rest =>
      unfold dotSpaceRuns
      split_ifs
      · have := ih rest (by simp at hs; omega)
        simp; omega
      · simp

theorem matchDotSpace_le (s : GoString) (n : Nat) (h : matchDotSpace s = some n) :
    n ≤ s.length := by
  have h1 := dotSpaceRuns_le s.length s (le_refl _)
  unfold matchDotSpace at h
  split_ifs at h with h2 h3
  · have h4 : s.drop (2 * dotSpaceRuns s) ≠ [] := by
      intro h5
      rw [h5] at h2
      simp at h2
    have h5 : 2 * dotSpaceRuns s < s.length := by
      by_contra h6
      exact h4 (List.drop_eq_nil_of_le (by omega))
    simp at h
    omega
  · simp at h
    omega

theorem matchDotNonSpace_le (s : GoString) (n : Nat) (h : matchDotNonSpace s = some n) :
    n ≤ s.length := by
  match s with
  | [] => simp [matchDotNonSpace] at h
  | [_] => simp [matchDotNonSpace] at h
  | a :: b :: rest =>
    simp only [matchDotNonSpace] at h
    split_ifs at h
    have := DecodeRune_width_le (b :: rest)
    simp at h this ⊢
    omega

theorem ReMultiCharPunctAt_le (s : GoString) (n : Nat) (h : ReMultiCharPunctAt s = some n) :
    n ≤ s.length := by
  unfold ReMultiCharPunctAt at h
  cases h1 : reMultiCharPunctAt s with
  | some m =>
    rw [h1] at h
    simp at h
    subst h
    unfold reMultiCharPunctAt reEllipsisAt at h1
    split_ifs at h1
    · simp at h1; rw [← h1]; exact runLength_le _ _
    · simp at h1; rw [← h1]; exact runLength_le _ _
    · exact matchDotSpace_le s m h1
  | none =>
    rw [h1] at h
    exact matchDotNonSpace_le s n h

theorem findFrom_bounds (matchAt : GoString → Option Nat)
    (hm : ∀ t n, matchAt t = some n → n ≤ t.length) :
    ∀ (s : GoString) (i a e : Nat), findFrom matchAt i s = some (a, e) →
      i ≤ a ∧ a ≤ e ∧ e ≤ i + s.length := by
  intro s
  induction s with
  | nil => intro i a e h; simp [findFrom] at h
  | cons b rest ih =>
    intro i a e h
    unfold findFrom at h
    cases hq : matchAt (b :: rest) with
    | some n =>
      rw [hq] at h
      simp at h
      have := hm _ _ hq
      omega
    | none =>
      rw [hq] at h
      have := ih _ _ _ h
      simp
      omega

theorem multiSplit_isSome (word : GoString) (s e : Nat) (hse : s ≤ e) (he : e ≤ word.length)
    (hne : word ≠ []) : ∃ t, multiSplit word (toRunes word) s e = some t := by
  have h1 := toRunes_length_pos word hne
  have h2 := toRunes_length_le word
  unfold multiSplit
  split_ifs
  · rw [goSlice_eq_some _ 0 _ (le_refl _) (by omega) (by omega)]
    exact ⟨_, rfl⟩
  · rw [goSlice_eq_some _ 0 _ (le_refl _) (by omega) (by omega),
      goSlice_eq_some _ _ _ (by omega) (by omega) (le_refl _)]
    exact ⟨_, rfl⟩
  · rw [goSlice_eq_some _ 0 _ (le_refl _) (by omega) (by omega),
      goSlice_eq_some _ _ _ (by omega) (by omega) (le_refl _)]
    exact ⟨_, rfl⟩

/-- The loop body of WordTokenizer never indexes out of range. -/
theorem splitWord_isSome (word : GoString) : ∃ t, splitWord word = some t := by
  unfold splitWord
  obtain ⟨⟨first, second⟩, hr⟩ := foldlM_isSome (endPunctStep word (toRunes word)) endPuncts
    (word, []) (fun x hx a => endPunctStep_isSome word x hx a)
  rw [hr]
  cases hf : FindStringIndex ReMultiCharPunctAt word with
  | none => exact ⟨_, rfl⟩
  | some se =>
    obtain ⟨s, e⟩ := se
    have hb := findFrom_bounds ReMultiCharPunctAt ReMultiCharPunctAt_le word 0 s e hf
    have hne : word ≠ [] := by
      rintro rfl
      simp [FindStringIndex, findFrom] at hf
    exact multiSplit_isSome word s e hb.2.1 (by omega) hne

theorem wordLoop_isSome : ∀ (words : List GoString) (tokens : List PairToken),
    ∃ r, wordLoop words tokens = some r := by
  intro words
  induction words with
  | nil => intro tokens; exact ⟨tokens, rfl⟩
  | cons word rest ih =>
    intro tokens
    unfold wordLoop
    split_ifs
    · exact ih tokens
    · obtain ⟨t, ht⟩ := splitWord_isSome word
      rw [ht]
      exact ih _

theorem WordTokenizer_isSome (text : GoString) : ∃ r, WordTokenizer text = some r :=
  wordLoop_isSome _ _


theorem indexAux_of_infix (sub : GoString) :
    ∀ s : GoString, sub <:+: s → indexAux sub s ≠ none := by
  intro s
  induction s with
  | nil =>
    intro h
    have : sub = [] := List.eq_nil_of_infix_nil h
    simp [indexAux, this]
  | cons b rest ih =>
    intro h
    unfold indexAux
    by_cases hp : sub.isPrefixOf (b :: rest) = true
    · simp [hp]
    · simp only [hp, Bool.false_eq_true, if_false]
      rcases List.infix_cons_iff.mp h with h1 | h1
      · exact absurd (List.isPrefixOf_iff_prefix.mpr h1) hp
      · have := ih h1
        cases hq : indexAux sub rest with
        | none => exact absurd hq this
        | some n => simp

theorem Index_of_mem (l : List GoString) (t : GoString) (h : t ∈ l) :
    Index l.flatten t ≠ -1 := by
  have h1 := indexAux_of_infix t l.flatten (List.infix_of_mem_flatten h)
  unfold Index
  cases hq : indexAux t l.flatten with
  | none => exact absurd hq h1
  | some n =>
    simp only
    omega

theorem nonwordMatch_nil (p : Base) : nonwordMatch p [] = false := by
  simp [nonwordMatch, toRunes, runeChunks, runeChunksAux, FindStringIndex, findFrom]

theorem splitByte_ne_nil (sep : Nat) : ∀ s : GoString, splitByte sep s ≠ [] := by
  intro s
  induction s with
  | nil => simp [splitByte]
  | cons b rest ih =>
    unfold splitByte
    split
    · simp
    · split <;> simp

/-! ## First-pass annotation -/

/-- The text of a period-final token can be cut at its rune count less one. -/
theorem stem_slice_some (tok : GoString) (h : HasSuffix tok [0x2E] = true) :
    ∃ stem, goSlice tok 0 (((toRunes tok).length : Int) - 1) = some stem := by
  have h1 := toRunes_length_pos tok (ne_nil_of_HasSuffix tok _ h)
  have h2 := toRunes_length_le tok
  exact ⟨_, goSlice_eq_some tok 0 _ (le_refl _) (by omega) (by omega)⟩

/-- On a token whose `PeriodFinal` field agrees with its text, the first pass
returns, and it changes at most one of the three flags, to true. -/
theorem firstPassAnnotation_cases (p : Base) (t : DefaultToken)
    (hpf : t.PeriodFinal = HasSuffix t.Tok [0x2E]) :
    firstPassAnnotation p t = some { t with SentBreak := true }
      ∨ firstPassAnnotation p t = some { t with Ellipsis := true }
      ∨ firstPassAnnotation p t = some { t with Abbr := true }
      ∨ firstPassAnnotation p t = some t := by
  unfold firstPassAnnotation
  by_cases h1 : Index p.sentEndChars.flatten t.Tok ≠ -1
  · left; rw [if_pos h1]
  · rw [if_neg h1]
    by_cases h2 : t.IsEllipsis = true
    · right; left; rw [if_pos h2]
    · rw [if_neg h2]
      by_cases h3 : t.PeriodFinal = true ∧ HasSuffix t.Tok [0x2E, 0x2E] = false
      · rw [if_pos h3]
        obtain ⟨stem, hstem⟩ := stem_slice_some t.Tok (hpf ▸ h3.1)
        rw [hstem]
        cases hl : (splitByte 0x2D (ToLower stem)).getLast? with
        | none =>
          exact absurd (List.getLast?_eq_none_iff.mp hl) (splitByte_ne_nil _ _)
        | some seg =>
          by_cases h4 : p.IsAbbr (ToLower stem) seg = true
          · right; right; left
            simp only [hl, h4, if_true]
          · left
            simp only [hl, h4]
            rfl
      · right; right; right; rw [if_neg h3]

/-- C6: a token whose text is one of the configured sentence-end characters gets
SentBreak = true, with Abbr and Ellipsis left as they were, and the outcome is
the same whatever the abbreviation oracle is. -/
theorem firstPassAnnotation_sentEnd (p : Base) (tok : DefaultToken)
    (h : tok.Tok ∈ p.sentEndChars) :
    firstPassAnnotation p tok = some { tok with SentBreak := true }
      ∧ ∀ oracle : GoString → GoString → Bool,
          firstPassAnnotation { p with IsAbbr := oracle } tok
            = some { tok with SentBreak := true } := by
  have h1 : Index p.sentEndChars.flatten tok.Tok ≠ -1 := Index_of_mem _ _ h
  constructor
  · unfold firstPassAnnotation
    simp only [h1, ne_eq, not_false_eq_true, if_true]
  · intro oracle
    unfold firstPassAnnotation
    simp only [h1, ne_eq, not_false_eq_true, if_true]

/-- Witness for C6: the token `?` under the default configuration. -/
theorem firstPassAnnotation_sentEnd_witness :
    [0x3F] ∈ (baseWith (fun _ _ => false)).sentEndChars
      ∧ firstPassAnnotation (baseWith (fun _ _ => false)) (NewToken [0x3F])
          = some { NewToken [0x3F] with SentBreak := true } :=
  ⟨by decide,
    (firstPassAnnotation_sentEnd (baseWith (fun _ _ => false)) (NewToken [0x3F])
      (by decide)).1⟩

/-- C3: for tokens as the tokenizer creates them (PeriodFinal derived from the
text, the three flags false), AnnotateFirstPass returns a token for each input
token, with the same text, and at most one of SentBreak, Abbr, Ellipsis true. -/
theorem AnnotateFirstPass_exclusive (p : Base) (tokens : List DefaultToken)
    (h : ∀ t ∈ tokens, t.PeriodFinal = HasSuffix t.Tok [0x2E] ∧ t.SentBreak = false
      ∧ t.Abbr = false ∧ t.Ellipsis = false) :
    ∃ out, AnnotateFirstPass p tokens = some out
      ∧ out.map (fun t => t.Tok) = tokens.map (fun t => t.Tok)
      ∧ ∀ t ∈ out, ¬ (t.SentBreak = true ∧ t.Abbr = true)
          ∧ ¬ (t.SentBreak = true ∧ t.Ellipsis = true)
          ∧ ¬ (t.Abbr = true ∧ t.Ellipsis = true) := by
  induction tokens with
  | nil => exact ⟨[], by simp [AnnotateFirstPass]⟩
  | cons t rest ih =>
    obtain ⟨out, ho, hm, hx⟩ := ih (fun u hu => h u (List.mem_cons_of_mem _ hu))
    obtain ⟨hpf, hs, ha, he⟩ := h t (List.mem_cons_self _ _)
    have key : ∃ r, firstPassAnnotation p t = some r ∧ r.Tok = t.Tok
        ∧ ¬ (r.SentBreak = true ∧ r.Abbr = true)
        ∧ ¬ (r.SentBreak = true ∧ r.Ellipsis = true)
        ∧ ¬ (r.Abbr = true ∧ r.Ellipsis = true) := by
      rcases firstPassAnnotation_cases p t hpf with hc | hc | hc | hc
      all_goals exact ⟨_, hc, rfl, by simp [hs, ha, he]⟩
    obtain ⟨r, hr, hrt, hr1⟩ := key
    refine ⟨r :: out, ?_, ?_, ?_⟩
    · simp [AnnotateFirstPass, hr, ho]
    · simp [hrt, hm]
    · intro u hu
      rcases List.mem_cons.mp hu with hu | hu
      · subst hu; exact hr1
      · exact hx u hu

/-- Witness for C3: the tokens `Dr.` and `?` as NewToken makes them. -/
theorem AnnotateFirstPass_exclusive_witness :
    ∃ out, AnnotateFirstPass (baseWith (fun _ _ => false)) [NewToken (str "Dr."), NewToken (str "?")]
        = some out
      ∧ out.map (fun t => t.Tok) = [NewToken (str "Dr."), NewToken (str "?")].map (fun t => t.Tok)
      ∧ ∀ t ∈ out, ¬ (t.SentBreak = true ∧ t.Abbr = true)
          ∧ ¬ (t.SentBreak = true ∧ t.Ellipsis = true)
          ∧ ¬ (t.Abbr = true ∧ t.Ellipsis = true) :=
  AnnotateFirstPass_exclusive (baseWith (fun _ _ => false))
    [NewToken (str "Dr."), NewToken (str "?")] (by decide)

/-- C7: the text `?!` is not one of the sentence-end characters, is not an
ellipsis and does not end in a period; TokenizeWords emits it as one token and
the first pass sets SentBreak on it, because `strings.Index` finds `?!` inside
the joined sentence-end characters `.?!`. -/
theorem firstPass_questionBang :
    str "?!" ∉ NewLanguage.sentEndChars
      ∧ (NewToken (str "?!")).IsEllipsis = false
      ∧ (NewToken (str "?!")).PeriodFinal = false
      ∧ Index NewLanguage.sentEndChars.flatten (str "?!") = 1
      ∧ tokenizeAndAnnotate (baseWith (fun _ _ => false)) (str "?!")
          = some [{ Tok := str "?!", ParaStart := false, LineStart := true,
                    PeriodFinal := false, SentBreak := true, Abbr := false,
                    Ellipsis := false }] := by
  decide

/-- C2: the token `Sté.` (bytes 53 74 C3 A9 2E, four runes) with an oracle that
knows the abbreviation `sté`: the lower-cased text without its period is `sté`
and the oracle accepts it, but the first pass cuts the text at byte 3, asks the
oracle about `st` followed by U+FFFD and marks a sentence break, also when the
token comes from TokenizeWords. -/
theorem firstPass_stem_multibyte :
    ToLower [0x53, 0x74, 0xC3, 0xA9] = str "sté"
      ∧ (splitByte 0x2D (str "sté")).getLast? = some (str "sté")
      ∧ goSlice [0x53, 0x74, 0xC3, 0xA9, 0x2E] 0
          (((toRunes [0x53, 0x74, 0xC3, 0xA9, 0x2E]).length : Int) - 1) = some [0x53, 0x74, 0xC3]
      ∧ ToLower [0x53, 0x74, 0xC3] = [0x73, 0x74, 0xEF, 0xBF, 0xBD]
      ∧ firstPassAnnotation (baseWith (fun s h => decide (s = str "sté" ∧ h = str "sté")))
            (NewToken [0x53, 0x74, 0xC3, 0xA9, 0x2E])
          = some { NewToken [0x53, 0x74, 0xC3, 0xA9, 0x2E] with SentBreak := true }
      ∧ tokenizeAndAnnotate (baseWith (fun s h => decide (s = str "sté" ∧ h = str "sté")))
            (str "Sté.")
          = some [{ Tok := [0x53, 0x74, 0xC3, 0xA9, 0x2E], ParaStart := false,
                    LineStart := true, PeriodFinal := true, SentBreak := true,
                    Abbr := false, Ellipsis := false }] := by
  decide

/-- C9 as stated fails: for `Dr. Smith gave a talk.` the token texts are not
`Dr`, `.`, `Smith`, `gave`, `a`, `talk`, `.`. -/
theorem drSmith_counterexample :
    (tokenizeAndAnnotate (baseWith (fun s h => decide (s = str "dr" ∧ h = str "dr")))
        (str "Dr. Smith gave a talk.")).map (fun l => l.map (fun t => t.Tok))
      ≠ some [str "Dr", str ".", str "Smith", str "gave", str "a", str "talk", str "."] := by
  decide

/-- C9 amended: for `Dr. Smith gave a talk.` and an oracle with
IsAbbr("dr", "dr") true and IsAbbr("talk", "talk") false, the tokens are `Dr.`,
`Smith`, `gave`, `talk.`: periods stay attached, the one-letter word `a` is
skipped, `Dr.` is flagged Abbr and `talk.` is flagged SentBreak. -/
theorem drSmith_tokens (oracle : GoString → GoString → Bool)
    (hdr : oracle (str "dr") (str "dr") = true)
    (htalk : oracle (str "talk") (str "talk") = false) :
    tokenizeAndAnnotate (baseWith oracle) (str "Dr. Smith gave a talk.")
      = some [
          { Tok := str "Dr.", ParaStart := false, LineStart := true, PeriodFinal := true,
            SentBreak := false, Abbr := true, Ellipsis := false },
          { Tok := str "Smith", ParaStart := false, LineStart := false, PeriodFinal := false,
            SentBreak := false, Abbr := false, Ellipsis := false },
          { Tok := str "gave", ParaStart := false, LineStart := false, PeriodFinal := false,
            SentBreak := false, Abbr := false, Ellipsis := false },
          { Tok := str "talk.", ParaStart := false, LineStart := false, PeriodFinal := true,
            SentBreak := true, Abbr := false, Ellipsis := false }] := by
  have ht : TokenizeWords (baseWith oracle) (str "Dr. Smith gave a talk.")
      = some [{ NewToken (str "Dr.") with LineStart := true }, NewToken (str "Smith"),
          NewToken (str "gave"), NewToken (str "talk.")] := rfl
  have a1 : firstPassAnnotation (baseWith oracle) { NewToken (str "Dr.") with LineStart := true }
      = if oracle (str "dr") (str "dr") = true then
          some { NewToken (str "Dr.") with LineStart := true, Abbr := true }
        else some { NewToken (str "Dr.") with LineStart := true, SentBreak := true } := rfl
  have a2 : firstPassAnnotation (baseWith oracle) (NewToken (str "Smith"))
      = some (NewToken (str "Smith")) := rfl
  have a3 : firstPassAnnotation (baseWith oracle) (NewToken (str "gave"))
      = some (NewToken (str "gave")) := rfl
  have a4 : firstPassAnnotation (baseWith oracle) (NewToken (str "talk."))
      = if oracle (str "talk") (str "talk") = true then
          some { NewToken (str "talk.") with Abbr := true }
        else some { NewToken (str "talk.") with SentBreak := true } := rfl
  simp only [tokenizeAndAnnotate, ht, AnnotateFirstPass, a1, a2, a3, a4, hdr, htalk]
  decide

/-- Witness for C9: an oracle that knows `dr` only. -/
theorem drSmith_tokens_witness :
    tokenizeAndAnnotate (baseWith (fun s h => decide (s = str "dr" ∧ h = str "dr")))
        (str "Dr. Smith gave a talk.")
      = some [
          { Tok := str "Dr.", ParaStart := false, LineStart := true, PeriodFinal := true,
            SentBreak := false, Abbr := true, Ellipsis := false },
          { Tok := str "Smith", ParaStart := false, LineStart := false, PeriodFinal := false,
            SentBreak := false, Abbr := false, Ellipsis := false },
          { Tok := str "gave", ParaStart := false, LineStart := false, PeriodFinal := false,
            SentBreak := false, Abbr := false, Ellipsis := false },
          { Tok := str "talk.", ParaStart := false, LineStart := false, PeriodFinal := true,
            SentBreak := true, Abbr := false, Ellipsis := false }] :=
  drSmith_tokens (fun s h => decide (s = str "dr" ∧ h = str "dr")) (by decide) (by decide)

theorem runLength_replicate (c : Nat) : ∀ n : Nat, runLength c (List.replicate n c) = n := by
  intro n
  induction n with
  | zero => rfl
  | succ n ih => simp [List.replicate_succ, runLength, ih]

theorem infix_of_indexAux (sub : GoString) :
    ∀ (s : GoString) (k : Nat), indexAux sub s = some k → sub <:+: s := by
  intro s
  induction s with
  | nil =>
    intro k h
    unfold indexAux at h
    split_ifs at h with h1
    rw [h1]
  | cons b rest ih =>
    intro k h
    unfold indexAux at h
    split_ifs at h with h1
    · exact (List.isPrefixOf_iff_prefix.mp h1).isInfix
    · cases hq : indexAux sub rest with
      | none => rw [hq] at h; simp at h
      | some m => exact List.infix_cons (ih m hq)

theorem Index_periods (l : GoString) (hl : ¬ [0x2E, 0x2E] <:+: l) (n : Nat) (hn : 2 ≤ n) :
    Index l (List.replicate n 0x2E) = -1 := by
  unfold Index
  cases hq : indexAux (List.replicate n 0x2E) l with
  | none => rfl
  | some k =>
    exfalso
    apply hl
    have h1 := infix_of_indexAux _ _ _ hq
    have h2 : [0x2E, 0x2E] <+: List.replicate n 0x2E := by
      obtain ⟨m, rfl⟩ : ∃ m, n = m + 2 := ⟨n - 2, by omega⟩
      exact ⟨List.replicate m 0x2E, by simp [List.replicate_succ]⟩
    exact h2.isInfix.trans h1

theorem IsEllipsis_periods (n : Nat) (hn : 2 ≤ n) (t : DefaultToken)
    (ht : t.Tok = List.replicate n 0x2E) : t.IsEllipsis = true := by
  obtain ⟨m, rfl⟩ : ∃ m, n = m + 1 := ⟨n - 1, by omega⟩
  have h1 : reEllipsisAt (0x2E :: List.replicate m 0x2E) = some (m + 1) := by
    have := runLength_replicate 0x2E (m + 1)
    rw [List.replicate_succ] at this
    simp [reEllipsisAt, this, hn]
  simp [DefaultToken.IsEllipsis, ht, List.replicate_succ, FindStringIndex, findFrom, h1]

theorem firstPassAnnotation_of_ellipsis (p : Base) (t : DefaultToken)
    (h1 : Index p.sentEndChars.flatten t.Tok = -1) (h2 : t.IsEllipsis = true) :
    firstPassAnnotation p t = some { t with Ellipsis := true } := by
  unfold firstPassAnnotation
  rw [if_neg (by simp [h1]), if_pos h2]

/-- C8: whenever the configured sentence-end characters, joined, hold no two
adjacent periods (the default `.?!` does not), a token whose text is two or more
periods gets Ellipsis = true and keeps SentBreak and Abbr false, whatever the
oracle; and under the default configuration `Wait... really?` is tokenized and
annotated as `Wait`, `...` (Ellipsis), `really`, `?` (SentBreak). -/
theorem firstPassAnnotation_ellipsis (p : Base)
    (hcfg : ¬ [0x2E, 0x2E] <:+: p.sentEndChars.flatten) (n : Nat) (hn : 2 ≤ n)
    (parastart linestart : Bool) (oracle : GoString → GoString → Bool) :
    firstPassAnnotation p
        { Tok := List.replicate n 0x2E, ParaStart := parastart, LineStart := linestart,
          PeriodFinal := HasSuffix (List.replicate n 0x2E) [0x2E],
          SentBreak := false, Abbr := false, Ellipsis := false }
      = some { Tok := List.replicate n 0x2E, ParaStart := parastart, LineStart := linestart,
               PeriodFinal := HasSuffix (List.replicate n 0x2E) [0x2E],
               SentBreak := false, Abbr := false, Ellipsis := true }
    ∧ tokenizeAndAnnotate (baseWith oracle) (str "Wait... really?")
      = some [
          { Tok := str "Wait", ParaStart := false, LineStart := true, PeriodFinal := false,
            SentBreak := false, Abbr := false, Ellipsis := false },
          { Tok := str "...", ParaStart := false, LineStart := false, PeriodFinal := true,
            SentBreak := false, Abbr := false, Ellipsis := true },
          { Tok := str "really", ParaStart := false, LineStart := false, PeriodFinal := false,
            SentBreak := false, Abbr := false, Ellipsis := false },
          { Tok := str "?", ParaStart := false, LineStart := false, PeriodFinal := false,
            SentBreak := true, Abbr := false, Ellipsis := false }] := by
  constructor
  · apply firstPassAnnotation_of_ellipsis
    · exact Index_periods _ hcfg n hn
    · exact IsEllipsis_periods n hn _ rfl
  · rfl

/-- Witness for C8: the token `...` under the default configuration. -/
theorem firstPassAnnotation_ellipsis_witness :
    ¬ [0x2E, 0x2E] <:+: (baseWith (fun _ _ => true)).sentEndChars.flatten ∧ 2 ≤ 3
      ∧ firstPassAnnotation (baseWith (fun _ _ => true))
        { Tok := List.replicate 3 0x2E, ParaStart := false, LineStart := false,
          PeriodFinal := HasSuffix (List.replicate 3 0x2E) [0x2E],
          SentBreak := false, Abbr := false, Ellipsis := false }
      = some { Tok := List.replicate 3 0x2E, ParaStart := false, LineStart := false,
               PeriodFinal := HasSuffix (List.replicate 3 0x2E) [0x2E],
               SentBreak := false, Abbr := false, Ellipsis := true } :=
  ⟨by decide, by decide,
    (firstPassAnnotation_ellipsis (baseWith (fun _ _ => true)) (by decide) 3 (by decide)
      false false (fun _ _ => true)).1⟩

/-- C1: the word `c.-à-d.` (bytes 63 2E 2D C3 A0 2D 64 2E, seven runes): the
pattern matches `.-` at [1, 3), the word ends in a period, and the first half is
cut at byte 7 - 1 = 6, not at byte 8 - 1 = 7; the pair is (`c.-à-`, `.`), whose
concatenation has lost the letter `d`, and TokenizeWords emits that damaged text
as the token. -/
theorem WordTokenizer_multibyte :
    str "c.-à-d." = [0x63, 0x2E, 0x2D, 0xC3, 0xA0, 0x2D, 0x64, 0x2E]
      ∧ FindStringIndex ReMultiCharPunctAt (str "c.-à-d.") = some (1, 3)
      ∧ WordTokenizer (str "c.-à-d.") = some [⟨str "c.-à-", str "."⟩]
      ∧ str "c.-à-" ++ str "." ≠ str "c.-à-d."
      ∧ (TokenizeWords (baseWith (fun _ _ => false)) (str "c.-à-d.")).map
          (fun l => l.map (fun t => t.Tok)) = some [str "c.-à-."] := by
  decide

/-! ## pairIter -/

theorem pairLoop_eq : ∀ (rest : List TokenPtr) (prev : TokenPtr)
    (acc : List (TokenPtr × TokenPtr)), List.Chain (fun a b => a ≠ b) prev rest →
    pairLoop prev rest acc = acc ++ List.zip (prev :: rest) (rest ++ [none]) := by
  intro rest
  induction rest with
  | nil => intro prev acc _; simp [pairLoop]
  | cons tok rest ih =>
    intro prev acc hc
    rw [List.chain_cons] at hc
    unfold pairLoop
    rw [if_neg hc.1, ih tok _ hc.2]
    simp

/-- C4 as stated fails: a slice holding the same token pointer twice has length
2, and pairIter returns the single pair (token, nil). -/
theorem pairIter_counterexample :
    pairIter [some 7, some 7] = some [(some 7, none)]
      ∧ (pairIter [some 7, some 7]).map List.length ≠ some [some 7, some 7].length := by
  decide

/-- C4 amended: for a non-empty token slice in which no entry is the same
pointer as its predecessor, pairIter returns as many pairs as there are tokens;
the first elements of the pairs are the tokens in order, the second elements are
the tokens from the second one on, and the second element of the last pair is
nil. -/
theorem pairIter_spec (tokens : List TokenPtr) (hne : tokens ≠ [])
    (hadj : List.Chain' (fun a b => a ≠ b) tokens) :
    ∃ pairs, pairIter tokens = some pairs
      ∧ pairs.length = tokens.length
      ∧ pairs.map Prod.fst = tokens
      ∧ pairs.map Prod.snd = tokens.tail ++ [none]
      ∧ pairs.getLast?.map Prod.snd = some none := by
  cases tokens with
  | nil => exact absurd rfl hne
  | cons t0 rest =>
    have hc : List.Chain (fun a b => a ≠ b) t0 rest := hadj
    have h1 : pairIter (t0 :: rest) = some (List.zip (t0 :: rest) (rest ++ [none])) := by
      simp only [pairIter]
      unfold pairLoop
      rw [if_pos rfl, pairLoop_eq rest t0 [] hc]
      simp
    have hlen : (t0 :: rest).length = (rest ++ [none]).length := by simp
    refine ⟨_, h1, ?_, ?_, ?_, ?_⟩
    · simp
    · exact List.map_fst_zip _ _ (by simp)
    · exact List.map_snd_zip _ _ (by simp)
    · rw [← List.getLast?_map, List.map_snd_zip _ _ (by simp)]
      simp

/-- Witness for C4: three distinct token pointers. -/
theorem pairIter_spec_witness :
    ∃ pairs, pairIter [some 0, some 1, some 2] = some pairs
      ∧ pairs.length = [some 0, some 1, some 2].length
      ∧ pairs.map Prod.fst = [some 0, some 1, some 2]
      ∧ pairs.map Prod.snd = [some 0, some 1, some 2].tail ++ [none]
      ∧ pairs.getLast?.map Prod.snd = some none :=
  pairIter_spec [some 0, some 1, some 2] (by decide) (by simp)

/-! ## AddToken -/

/-- C10: AddToken returns the existing list followed by the two tokens
[first carrying parastart/linestart, second with both flags false] when second
is non-empty and matches the non-word-or-multi-character-punctuation pattern or
ends in a comma, and followed by the single token first + second carrying
parastart/linestart otherwise. -/
theorem AddToken_spec (p : Base) (tokens : List DefaultToken) (first second : GoString)
    (parastart linestart : Bool) :
    AddToken p tokens ⟨first, second⟩ parastart linestart =
      (if second ≠ [] ∧ (nonwordMatch p second = true ∨ HasSuffix second [0x2C] = true) then
        tokens ++ [{ NewToken first with ParaStart := parastart, LineStart := linestart },
          { NewToken second with ParaStart := false, LineStart := false }]
      else
        tokens ++ [{ NewToken (first ++ second) with
          ParaStart := parastart, LineStart := linestart }]) := by
  by_cases hs : second = []
  · subst hs
    have h2 : HasSuffix ([] : GoString) [0x2C] = false := by decide
    simp [AddToken, nonwordMatch_nil, h2]
  · simp only [AddToken, ne_eq, hs, not_false_eq_true, true_and]
    rfl

/-! ## TokenizeWords -/

theorem splitByte_of_not_mem (sep : Nat) : ∀ x : GoString, sep ∉ x → splitByte sep x = [x] := by
  intro x
  induction x with
  | nil => intro _; rfl
  | cons b rest ih =>
    intro h
    have h1 : b ≠ sep := fun he => h (by simp [he])
    have h2 : sep ∉ rest := fun hm => h (List.mem_cons_of_mem _ hm)
    simp [splitByte, h1, ih h2]

theorem splitByte_append (sep : Nat) (y : GoString) : ∀ x : GoString, sep ∉ x →
    splitByte sep (x ++ sep :: y) = x :: splitByte sep y := by
  intro x
  induction x with
  | nil => intro _; simp [splitByte]
  | cons b rest ih =>
    intro h
    have h1 : b ≠ sep := fun he => h (by simp [he])
    have h2 : sep ∉ rest := fun hm => h (List.mem_cons_of_mem _ hm)
    simp [splitByte, h1, ih h2]

theorem splitByte_joinLines : ∀ (ls : List GoString), ls ≠ [] → (∀ x ∈ ls, 0x0A ∉ x) →
    splitByte 0x0A (joinLines ls) = ls := by
  intro ls
  induction ls with
  | nil => intro h; exact absurd rfl h
  | cons l rest ih =>
    intro _ h
    cases rest with
    | nil => simpa [joinLines] using splitByte_of_not_mem _ l (h l (by simp))
    | cons l2 rest =>
      simp only [joinLines]
      rw [splitByte_append _ _ l (h l (by simp)),
        ih (by simp) (fun x hx => h x (List.mem_cons_of_mem _ hx))]

theorem trimByte_of_all (c : Nat) (s : GoString) (h : ∀ b ∈ s, b = c) : trimByte c s = [] := by
  have : s.dropWhile (fun b => b == c) = [] := by
    rw [List.dropWhile_eq_nil_iff]
    intro x hx
    simp [h x hx]
  simp [trimByte, this]

theorem trimByte_ne_nil (c : Nat) (s : GoString) (h : ∃ b ∈ s, b ≠ c) : trimByte c s ≠ [] := by
  intro ht
  have h1 : s.dropWhile (fun b => b == c) ≠ [] := by
    intro h2
    rw [List.dropWhile_eq_nil_iff] at h2
    obtain ⟨b, hb, hne⟩ := h
    have := h2 b hb
    simp at this
    exact hne this
  have h3 : (s.dropWhile (fun b => b == c)).reverse.dropWhile (fun b => b == c) = [] := by
    simpa [trimByte] using ht
  rw [List.dropWhile_eq_nil_iff] at h3
  have h4 := List.head_dropWhile_not (fun b => b == c) s h1
  have h5 := h3 _ (List.mem_reverse.mpr (List.head_mem h1))
  rw [h4] at h5
  exact Bool.false_ne_true h5

/-- The tokens AddToken appends: the first carries the two flags, and a second
one, if any, carries neither. -/
theorem AddToken_shape (p : Base) (tokens : List DefaultToken) (pairTok : PairToken)
    (parastart linestart : Bool) :
    ∃ t extra, AddToken p tokens pairTok parastart linestart = tokens ++ t :: extra
      ∧ t.ParaStart = parastart ∧ t.LineStart = linestart
      ∧ ∀ u ∈ extra, u.ParaStart = false ∧ u.LineStart = false := by
  unfold AddToken
  split_ifs
  · exact ⟨_, [NewToken pairTok.Second], rfl, rfl, rfl, by simp [NewToken]⟩
  · exact ⟨_, [], rfl, rfl, rfl, by simp⟩

theorem lineLoop_no_paraStart (p : Base) : ∀ (prs : List PairToken) (index : Nat)
    (tokens : List DefaultToken),
    ∃ extra, lineLoop p index prs (tokens, false) = (tokens ++ extra, false)
      ∧ ∀ u ∈ extra, u.ParaStart = false := by
  intro prs
  induction prs with
  | nil => intro index tokens; exact ⟨[], by simp [lineLoop]⟩
  | cons pr rest ih =>
    intro index tokens
    have key : ∀ ls : Bool, ∃ extra,
        lineLoop p (index + 1) rest (AddToken p tokens pr false ls, false)
          = (tokens ++ extra, false) ∧ ∀ u ∈ extra, u.ParaStart = false := by
      intro ls
      obtain ⟨t, ex1, h1, h2, _, h4⟩ := AddToken_shape p tokens pr false ls
      obtain ⟨ex2, h5, h6⟩ := ih (index + 1) (tokens ++ t :: ex1)
      refine ⟨t :: ex1 ++ ex2, ?_, ?_⟩
      · rw [h1, h5]; simp
      · intro u hu
        simp only [List.cons_append, List.mem_cons, List.mem_append] at hu
        rcases hu with rfl | hu | hu
        · exact h2
        · exact (h4 u hu).1
        · exact h6 u hu
    unfold lineLoop
    split_ifs
    · exact key true
    · exact key false

theorem linesLoop_no_paraStart (p : Base) : ∀ (lines : List GoString)
    (tokens : List DefaultToken), (∀ x ∈ lines, ∃ c ∈ x, c ≠ 0x20) →
    ∃ extra, linesLoop p lines (tokens, false) = some (tokens ++ extra)
      ∧ ∀ u ∈ extra, u.ParaStart = false := by
  intro lines
  induction lines with
  | nil => intro tokens _; exact ⟨[], by simp [linesLoop]⟩
  | cons line rest ih =>
    intro tokens h
    have hnb : ¬ (trimByte 0x20 line = [] ∨ line = [0x20]) := by
      rintro (h1 | h1)
      · exact trimByte_ne_nil _ _ (h line (by simp)) h1
      · obtain ⟨c, hc, hne⟩ := h line (by simp)
        rw [h1] at hc
        simp at hc
        exact hne hc
    obtain ⟨prs, hprs⟩ := WordTokenizer_isSome line
    obtain ⟨ex1, h1, h2⟩ := lineLoop_no_paraStart p prs 0 tokens
    obtain ⟨ex2, h3, h4⟩ := ih (tokens ++ ex1) (fun x hx => h x (List.mem_cons_of_mem _ hx))
    refine ⟨ex1 ++ ex2, ?_, ?_⟩
    · unfold linesLoop
      rw [if_neg hnb, hprs]
      simp only [h1, h3, List.append_assoc]
    · intro u hu
      rcases List.mem_append.mp hu with hu | hu
      · exact h2 u hu
      · exact h4 u hu

/-- C5 as stated fails: the text is an empty line followed by the non-blank lines
`a` and `hello`; the first non-blank line holds a one-letter word only and
yields no token, so the pending flag survives it and ParaStart is true on
`hello`, a token of the second non-blank line. -/
theorem paraStart_counterexample :
    joinLines [[], str "a", str "hello"] = str "\na\nhello"
      ∧ WordTokenizer (str "a") = some []
      ∧ TokenizeWords (baseWith (fun _ _ => false)) (joinLines [[], str "a", str "hello"])
          = some [{ Tok := str "hello", ParaStart := true, LineStart := true,
                    PeriodFinal := false, SentBreak := false, Abbr := false,
                    Ellipsis := false }] := by
  decide

/-- C5 amended: for a text made of one blank line (spaces only, possibly none)
followed by lines that each hold a byte other than a space, if the first of
these lines yields at least one word pair, then TokenizeWords returns a token
list whose first token is the first token made from that pair, with ParaStart
and LineStart true, and every other token has ParaStart false. -/
theorem TokenizeWords_paraStart (p : Base) (blank line : GoString) (lines : List GoString)
    (pr : PairToken) (prs : List PairToken)
    (hb : ∀ c ∈ blank, c = 0x20)
    (hl : ∀ x ∈ line :: lines, 0x0A ∉ x ∧ ∃ c ∈ x, c ≠ 0x20)
    (hw : WordTokenizer line = some (pr :: prs)) :
    ∃ t ts, TokenizeWords p (joinLines (blank :: line :: lines)) = some (t :: ts)
      ∧ (AddToken p [] pr true true).head? = some t
      ∧ t.ParaStart = true ∧ t.LineStart = true
      ∧ ∀ u ∈ ts, u.ParaStart = false := by
  have hsplit : splitByte 0x0A (joinLines (blank :: line :: lines)) = blank :: line :: lines := by
    apply splitByte_joinLines _ (by simp)
    intro x hx
    rcases List.mem_cons.mp hx with rfl | hx
    · intro hm
      have := hb _ hm
      omega
    · exact (hl x hx).1
  have hblank : trimByte 0x20 blank = [] := trimByte_of_all _ _ hb
  have hnb : ¬ (trimByte 0x20 line = [] ∨ line = [0x20]) := by
    rintro (h1 | h1)
    · exact trimByte_ne_nil _ _ (hl line (by simp)).2 h1
    · obtain ⟨c, hc, hne⟩ := (hl line (by simp)).2
      rw [h1] at hc
      simp at hc
      exact hne hc
  obtain ⟨t, ex1, h1, h2, h3, h4⟩ := AddToken_shape p [] pr true true
  obtain ⟨ex2, h5, h6⟩ := lineLoop_no_paraStart p prs 1 (t :: ex1)
  obtain ⟨ex3, h7, h8⟩ := linesLoop_no_paraStart p lines (t :: ex1 ++ ex2)
    (fun x hx => (hl x (List.mem_cons_of_mem _ hx)).2)
  refine ⟨t, ex1 ++ ex2 ++ ex3, ?_, ?_, h2, h3, ?_⟩
  · unfold TokenizeWords
    rw [hsplit]
    unfold linesLoop
    rw [if_pos (Or.inl hblank)]
    unfold linesLoop
    rw [if_neg hnb, hw]
    simp only
    unfold lineLoop
    rw [if_pos rfl, h1]
    simp only [List.nil_append, zero_add]
    rw [h5, h7]
    simp
  · rw [h1]; simp
  · intro u hu
    simp only [List.mem_append] at hu
    rcases hu with (hu | hu) | hu
    · exact (h4 u hu).1
    · exact h6 u hu
    · exact h8 u hu

/-- Witness for C5: a line of one space, then `Hello world.` and `Bye now.`. -/
theorem TokenizeWords_paraStart_witness :
    ∃ t ts, TokenizeWords (baseWith (fun _ _ => false))
        (joinLines ([0x20] :: str "Hello world." :: [str "Bye now."])) = some (t :: ts)
      ∧ (AddToken (baseWith (fun _ _ => false)) [] ⟨str "Hello", []⟩ true true).head? = some t
      ∧ t.ParaStart = true ∧ t.LineStart = true
      ∧ ∀ u ∈ ts, u.ParaStart = false :=
  TokenizeWords_paraStart (baseWith (fun _ _ => false)) [0x20] (str "Hello world.")
    [str "Bye now."] ⟨str "Hello", []⟩ [⟨str "world.", []⟩] (by decide) (by decide) (by decide)


theorem AddToken_fresh (p : Base) (tokens : List DefaultToken) (pairTok : PairToken)
    (parastart linestart : Bool) (h : ∀ t ∈ tokens, t.fresh) :
    ∀ t ∈ AddToken p tokens pairTok parastart linestart, t.fresh := by
  intro t ht
  unfold AddToken at ht
  split_ifs at ht
  · simp only [List.mem_append, List.mem_cons, List.mem_singleton, List.not_mem_nil,
      or_false] at ht
    rcases ht with ht | rfl | rfl
    · exact h t ht
    · exact ⟨rfl, rfl, rfl, rfl⟩
    · exact ⟨rfl, rfl, rfl, rfl⟩
  · simp only [List.mem_append, List.mem_singleton] at ht
    rcases ht with ht | rfl
    · exact h t ht
    · exact ⟨rfl, rfl, rfl, rfl⟩

theorem lineLoop_fresh (p : Base) : ∀ (prs : List PairToken) (index : Nat)
    (tokens : List DefaultToken) (parastart : Bool), (∀ t ∈ tokens, t.fresh) →
    ∀ t ∈ (lineLoop p index prs (tokens, parastart)).1, t.fresh := by
  intro prs
  induction prs with
  | nil => intro index tokens parastart h; simpa [lineLoop] using h
  | cons pr rest ih =>
    intro index tokens parastart h
    unfold lineLoop
    split_ifs
    · exact ih _ _ _ (AddToken_fresh p tokens pr parastart true h)
    · exact ih _ _ _ (AddToken_fresh p tokens pr parastart false h)

theorem linesLoop_fresh (p : Base) : ∀ (lines : List GoString) (tokens : List DefaultToken)
    (parastart : Bool), (∀ t ∈ tokens, t.fresh) →
    ∃ out, linesLoop p lines (tokens, parastart) = some out ∧ ∀ t ∈ out, t.fresh := by
  intro lines
  induction lines with
  | nil => intro tokens parastart h; exact ⟨tokens, rfl, h⟩
  | cons line rest ih =>
    intro tokens parastart h
    unfold linesLoop
    split_ifs
    · exact ih tokens true h
    · obtain ⟨prs, hprs⟩ := WordTokenizer_isSome line
      simp only [hprs]
      have h1 := lineLoop_fresh p prs 0 tokens parastart h
      cases hq : lineLoop p 0 prs (tokens, parastart) with
      | mk toks ps =>
        rw [hq] at h1
        exact ih toks ps h1

/-- TokenizeWords returns for every text, and every token it returns is as
NewToken made it. -/
theorem TokenizeWords_fresh (p : Base) (text : GoString) :
    ∃ tokens, TokenizeWords p text = some tokens ∧ ∀ t ∈ tokens, t.fresh :=
  linesLoop_fresh p _ [] false (by simp)

/-! ## Words of single-byte characters -/

theorem DecodeRune_ascii (b : Nat) (rest : GoString) (h : b < 0x80) :
    DecodeRune (b :: rest) = (b, 1) := by
  simp [DecodeRune, h]

theorem runeChunksAux_ascii : ∀ s : GoString, (∀ b ∈ s, b < 0x80) →
    runeChunksAux 0 s = s.map (fun b => (b, [b])) := by
  intro s
  induction s with
  | nil => intro _; rfl
  | cons b rest ih =>
    intro h
    have hb : b < 0x80 := h b (by simp)
    simp only [runeChunksAux, DecodeRune_ascii b rest hb, List.map_cons]
    rw [ih (fun c hc => h c (List.mem_cons_of_mem _ hc))]
    simp

theorem toRunes_ascii (s : GoString) (h : ∀ b ∈ s, b < 0x80) : toRunes s = s := by
  simp only [toRunes, runeChunks, runeChunksAux_ascii s h, List.map_map]
  exact List.map_id _

theorem ofRunes_ascii : ∀ s : GoString, (∀ b ∈ s, b < 0x80) → ofRunes s = s := by
  intro s
  induction s with
  | nil => intro _; rfl
  | cons b rest ih =>
    intro h
    have hb : b < 0x80 := h b (by simp)
    have := ih (fun c hc => h c (List.mem_cons_of_mem _ hc))
    simp only [ofRunes, List.flatMap_cons] at this ⊢
    rw [this]
    simp [EncodeRune, hb]

theorem goSlice_split {α : Type} (s : List α) (k : Int) (a b : List α)
    (ha : goSlice s 0 k = some a) (hb : goSlice s k s.length = some b) : a ++ b = s := by
  unfold goSlice at ha hb
  split_ifs at ha hb with h1 h2
  simp at ha hb
  subst ha hb
  simp

theorem endPunctStep_concat_ascii (word : GoString) (hw : ∀ b ∈ word, b < 0x80)
    (acc r : GoString × GoString) (punct : GoString) (hacc : acc.1 ++ acc.2 = word)
    (hr : endPunctStep word word acc punct = some r) : r.1 ++ r.2 = word := by
  have key : ∀ (k : Int) (a b : List Nat), goSlice word 0 k = some a →
      goSlice word k word.length = some b → ofRunes a ++ ofRunes b = word := by
    intro k a b ha hb
    have hab := goSlice_split word k a b ha hb
    have h1 : ∀ c ∈ a, c < 0x80 := fun c hc => hw c (by rw [← hab]; simp [hc])
    have h2 : ∀ c ∈ b, c < 0x80 := fun c hc => hw c (by rw [← hab]; simp [hc])
    rw [ofRunes_ascii a h1, ofRunes_ascii b h2, hab]
  unfold endPunctStep at hr
  split_ifs at hr
  · cases ha : goSlice word 0 ((word.length : Int) - 2) with
    | none => simp [ha] at hr
    | some a =>
      cases hb : goSlice word ((word.length : Int) - 2) word.length with
      | none => simp [ha, hb] at hr
      | some b =>
        simp only [ha, hb, Option.some.injEq] at hr
        rw [← hr]
        exact key _ a b ha hb
  · cases ha : goSlice word 0 ((word.length : Int) - 1) with
    | none => simp [ha] at hr
    | some a =>
      cases hb : goSlice word ((word.length : Int) - 1) word.length with
      | none => simp [ha, hb] at hr
      | some b =>
        simp only [ha, hb, Option.some.injEq] at hr
        rw [← hr]
        exact key _ a b ha hb
  · simp only [Option.some.injEq] at hr
    rw [← hr]
    exact hacc

theorem foldlM_invariant {α β : Type} (f : β → α → Option β) (P : β → Prop)
    (hf : ∀ acc x r, P acc → f acc x = some r → P r) :
    ∀ (l : List α) (acc r : β), P acc → l.foldlM f acc = some r → P r := by
  intro l
  induction l with
  | nil =>
    intro acc r hacc h
    simp only [List.foldlM_nil] at h
    cases h
    exact hacc
  | cons x rest ih =>
    intro acc r hacc h
    simp only [List.foldlM_cons] at h
    cases hq : f acc x with
    | none => rw [hq] at h; simp at h
    | some y =>
      rw [hq] at h
      exact ih y r (hf acc x y hacc hq) h

theorem multiSplit_concat_ascii (word : GoString) (s e : Nat) (t : PairToken)
    (ht : multiSplit word word s e = some t) : t.First ++ t.Second = word := by
  unfold multiSplit at ht
  split_ifs at ht with h1 h2
  · cases ha : goSlice word 0 ((word.length : Int) - 1) with
    | none => simp [ha] at ht
    | some a =>
      simp only [ha, Option.some.injEq] at ht
      rw [← ht]
      obtain ⟨pre, hpre⟩ := List.isSuffixOf_iff_suffix.mp h1.1
      unfold goSlice at ha
      split_ifs at ha
      simp only [Option.some.injEq] at ha
      rw [← ha, ← hpre]
      simp
  · cases ha : goSlice word 0 (s : Int) with
    | none => simp [ha] at ht
    | some a =>
      cases hb : goSlice word (s : Int) word.length with
      | none => simp [ha, hb] at ht
      | some b =>
        simp only [ha, hb, Option.some.injEq] at ht
        rw [← ht]
        exact goSlice_split word _ a b ha hb
  · cases ha : goSlice word 0 (e : Int) with
    | none => simp [ha] at ht
    | some a =>
      cases hb : goSlice word (e : Int) word.length with
      | none => simp [ha, hb] at ht
      | some b =>
        simp only [ha, hb, Option.some.injEq] at ht
        rw [← ht]
        exact goSlice_split word _ a b ha hb

/-- On a word of single-byte characters the loop body of WordTokenizer returns a
pair whose halves concatenate to the word, in every branch. -/
theorem splitWord_concat_ascii (word : GoString) (hw : ∀ b ∈ word, b < 0x80) :
    ∃ t, splitWord word = some t ∧ t.First ++ t.Second = word := by
  obtain ⟨t, ht⟩ := splitWord_isSome word
  refine ⟨t, ht, ?_⟩
  unfold splitWord at ht
  rw [toRunes_ascii word hw] at ht
  cases hq : endPuncts.foldlM (endPunctStep word word) (word, []) with
  | none => rw [hq] at ht; simp at ht
  | some fs =>
    obtain ⟨first, second⟩ := fs
    have hinv := foldlM_invariant (endPunctStep word word) (fun acc => acc.1 ++ acc.2 = word)
      (fun acc x r hacc hr => endPunctStep_concat_ascii word hw acc r x hacc hr)
      endPuncts (word, []) (first, second) (by simp) hq
    rw [hq] at ht
    cases hf : FindStringIndex ReMultiCharPunctAt word with
    | none =>
      simp only [hf, Option.some.injEq] at ht
      rw [← ht]
      exact hinv
    | some se =>
      obtain ⟨s, e⟩ := se
      simp only [hf] at ht
      exact multiSplit_concat_ascii word s e t ht


theorem Index_endChars_periodFinal (tok : GoString) (h : HasSuffix tok [0x2E] = true)
    (hne : tok ≠ [0x2E]) : Index NewLanguage.sentEndChars.flatten tok = -1 := by
  rcases tok with _ | ⟨a, _ | ⟨b, _ | ⟨c, _ | ⟨d, r⟩⟩⟩⟩
  · simp [HasSuffix, List.isSuffixOf] at h
  · simp [HasSuffix, List.isSuffixOf, List.isPrefixOf] at h
    simp [h] at hne
  · simp [HasSuffix, List.isSuffixOf, List.isPrefixOf] at h
    subst h
    simp [Index, indexAux, NewLanguage, List.isPrefixOf]
  · simp [HasSuffix, List.isSuffixOf, List.isPrefixOf] at h
    subst h
    simp [Index, indexAux, NewLanguage, List.isPrefixOf]
  · simp [Index, indexAux, NewLanguage, List.isPrefixOf]

/-- On a period-final token of single-byte characters, under the default
configuration, the first pass asks the oracle about the lower-cased text without
its period and the last hyphen-separated segment of that, and sets Abbr or
SentBreak by the answer. -/
theorem firstPassAnnotation_periodFinal_ascii (oracle : GoString → GoString → Bool)
    (t : DefaultToken) (hascii : ∀ b ∈ t.Tok, b < 0x80) (hpf : t.PeriodFinal = true)
    (hsuf : HasSuffix t.Tok [0x2E] = true) (h2 : HasSuffix t.Tok [0x2E, 0x2E] = false)
    (hell : t.IsEllipsis = false) (hend : t.Tok ∉ NewLanguage.sentEndChars) :
    ∃ seg, (splitByte 0x2D (ToLower t.Tok.dropLast)).getLast? = some seg
      ∧ firstPassAnnotation (baseWith oracle) t
          = some (if oracle (ToLower t.Tok.dropLast) seg = true then { t with Abbr := true }
                  else { t with SentBreak := true }) := by
  have hne : t.Tok ≠ [0x2E] := fun h => hend (by rw [h]; decide)
  have h1 : ¬ (Index (baseWith oracle).sentEndChars.flatten t.Tok ≠ -1) := by
    have := Index_endChars_periodFinal t.Tok hsuf hne
    simpa [baseWith] using this
  have hpos : 1 ≤ t.Tok.length := by
    have := toRunes_length_pos t.Tok (ne_nil_of_HasSuffix _ _ hsuf)
    rw [toRunes_ascii _ hascii] at this
    exact this
  have hstem : goSlice t.Tok 0 (((toRunes t.Tok).length : Int) - 1) = some t.Tok.dropLast := by
    rw [toRunes_ascii _ hascii, goSlice_eq_some _ 0 _ (le_refl _) (by omega) (by omega),
      List.dropLast_eq_take]
    congr 1
    have : ((t.Tok.length : Int) - 1).toNat = t.Tok.length - 1 := by omega
    simp [this]
  cases hl : (splitByte 0x2D (ToLower t.Tok.dropLast)).getLast? with
  | none => exact absurd (List.getLast?_eq_none_iff.mp hl) (splitByte_ne_nil _ _)
  | some seg =>
    refine ⟨seg, rfl, ?_⟩
    unfold firstPassAnnotation
    rw [if_neg h1, if_neg (by simp [hell]), if_pos ⟨hpf, h2⟩, hstem]
    simp only [hl, baseWith]
    split_ifs <;> rfl

/-! ## Failure of pairIter on an empty slice -/

theorem pairIter_eq_outcome (tokens : List TokenPtr) :
    pairIter tokens =
      (match pairIterOutcome tokens with
        | Outcome.returned pairs => some pairs
        | Outcome.failed _ => none) := by
  cases tokens <;> rfl

/-- C14 as stated fails: on the empty slice pairIter does not end with the
EmptyInput error; the function has no error result at all. -/
theorem pairIter_empty_counterexample :
    pairIterOutcome [] ≠ Outcome.failed Failure.emptyInput := by
  simp [pairIterOutcome]

/-- C14 amended: on a token sequence of length 0 pairIter returns no pair list;
the index expression `tokens[0]` panics, index 0 being out of range for length
0. -/
theorem pairIter_empty :
    pairIter [] = none
      ∧ pairIterOutcome [] = Outcome.failed (Failure.indexOutOfRange 0 0) :=
  ⟨rfl, rfl⟩

/-! ## Totality of the tokenizers -/

/-- C17: for every text, of any bytes, WordTokenizer and TokenizeWords return:
no slice expression they evaluate is out of range. -/
theorem tokenizers_return (p : Base) (text : GoString) :
    (∃ pairs, WordTokenizer text = some pairs)
      ∧ ∃ tokens, TokenizeWords p text = some tokens :=
  ⟨WordTokenizer_isSome text, (TokenizeWords_fresh p text).imp (fun _ h => h.1)⟩

/-! ## One-letter words -/

/-- Every word whose length in bytes is 1 yields no pair and every other word
yields exactly one, in the order of the words. -/
theorem wordLoop_pairs : ∀ (words : List GoString) (tokens : List PairToken),
    ∃ pairs, wordLoop words tokens = some (tokens ++ pairs)
      ∧ List.Forall₂ (fun w pr => splitWord w = some pr)
          (words.filter (fun w => decide (w.length ≠ 1))) pairs := by
  intro words
  induction words with
  | nil => intro tokens; exact ⟨[], by simp [wordLoop], by simp⟩
  | cons word rest ih =>
    intro tokens
    unfold wordLoop
    by_cases h1 : word.length = 1
    · obtain ⟨pairs, h2, h3⟩ := ih tokens
      refine ⟨pairs, by rw [if_pos h1]; exact h2, ?_⟩
      simpa [List.filter_cons, h1] using h3
    · obtain ⟨t, ht⟩ := splitWord_isSome word
      obtain ⟨pairs, h2, h3⟩ := ih (tokens ++ [t])
      refine ⟨t :: pairs, ?_, ?_⟩
      · rw [if_neg h1, ht]
        simp only [h2, List.append_assoc, List.singleton_append]
      · simp only [List.filter_cons, h1, ne_eq, not_false_eq_true, decide_True, if_true]
        exact List.Forall₂.cons ht h3

/-- C13: the French one-letter word `à` is one character (one rune) but two bytes;
the guard `len(word) == 1` does not skip it, so WordTokenizer yields a pair for it
and TokenizeWords a token, while the one-letter word `a` yields none. -/
theorem WordTokenizer_one_letter_multibyte :
    toRunes (str "à") = [0xE0] ∧ (str "à").length = 2
      ∧ WordTokenizer (str "à") = some [⟨str "à", []⟩]
      ∧ WordTokenizer (str "a") = some []
      ∧ (TokenizeWords (baseWith (fun _ _ => false)) (str "il va à Paris")).map
          (fun l => l.map (fun t => t.Tok)) = some [str "il", str "va", str "à", str "Paris"]
      ∧ (TokenizeWords (baseWith (fun _ _ => false)) (str "il y a Paris")).map
          (fun l => l.map (fun t => t.Tok)) = some [str "il", str "Paris"] := by
  decide

/-! ## Lines of white space other than spaces -/

/-- C15: in `Hello.\r\n\r\nWorld.` the middle line is a lone carriage return; it
holds no word, yet it is not blank for the test of line 54, which trims spaces
only, so the flag stays down and `World.` has ParaStart false.  With a line of
one space in its place ParaStart is true. -/
theorem paraStart_carriageReturn :
    splitByte 0x0A (str "Hello.\r\n\r\nWorld.") = [str "Hello.\r", str "\r", str "World."]
      ∧ Fields (str "\r") = []
      ∧ trimByte 0x20 (str "\r") = str "\r"
      ∧ TokenizeWords (baseWith (fun _ _ => false)) (str "Hello.\r\n\r\nWorld.")
          = some [{ Tok := str "Hello.", ParaStart := false, LineStart := true,
                    PeriodFinal := true, SentBreak := false, Abbr := false,
                    Ellipsis := false },
                  { Tok := str "World.", ParaStart := false, LineStart := true,
                    PeriodFinal := true, SentBreak := false, Abbr := false,
                    Ellipsis := false }]
      ∧ TokenizeWords (baseWith (fun _ _ => false)) (str "Hello.\n \nWorld.")
          = some [{ Tok := str "Hello.", ParaStart := false, LineStart := true,
                    PeriodFinal := true, SentBreak := false, Abbr := false,
                    Ellipsis := false },
                  { Tok := str "World.", ParaStart := true, LineStart := true,
                    PeriodFinal := true, SentBreak := false, Abbr := false,
                    Ellipsis := false }] := by
  decide

/-! ## The default split -/

theorem endPuncts_fold_none (word : GoString)
    (hsuf : ∀ punct ∈ endPuncts, HasSuffix word punct = false) :
    endPuncts.foldlM (endPunctStep word (toRunes word)) (word, []) = some (word, []) := by
  have h1 := hsuf [0x3A] (by decide)
  have h2 := hsuf [0x2C] (by decide)
  have h3 := hsuf [0x3F] (by decide)
  have h4 := hsuf [0x3F, 0x22] (by decide)
  have h5 := hsuf [0x2E, 0x29] (by decide)
  simp [endPuncts, List.foldlM_cons, endPunctStep, h1, h2, h3, h4, h5]

/-- C12 as stated fails: `U.S.A` ends in none of the trailing punctuations and has
no run of hyphens or periods, yet the pattern of `word_tokenizer.go` also matches
a period followed by any character that is not white space; the pair is (`U.S`,
`.A`) and TokenizeWords emits two tokens. -/
theorem default_split_counterexample :
    (∀ punct ∈ endPuncts, HasSuffix (str "U.S.A") punct = false)
      ∧ FindStringIndex reMultiCharPunctAt (str "U.S.A") = none
      ∧ WordTokenizer (str "U.S.A") = some [⟨str "U.S", str ".A"⟩]
      ∧ (TokenizeWords (baseWith (fun _ _ => false)) (str "U.S.A")).map
          (fun l => l.map (fun t => t.Tok)) = some [str "U.S", str ".A"] := by
  decide

/-- C12 amended: for every word that ends in none of the trailing punctuations and
in which `ReMultiCharPunct` has no match (no run of two or more hyphens or
periods and no period followed by another character), the pair is (word, empty);
WordTokenizer returns that pair for a word of length at least 2 that is a field
of its own, and AddToken makes one token of it; so it is for
`state-of-the-art`. -/
theorem default_split (word : GoString)
    (hsuf : ∀ punct ∈ endPuncts, HasSuffix word punct = false)
    (hm : FindStringIndex ReMultiCharPunctAt word = none) :
    splitWord word = some ⟨word, []⟩
      ∧ (2 ≤ word.length → Fields word = [word] →
          WordTokenizer word = some [⟨word, []⟩])
      ∧ (∀ (p : Base) (tokens : List DefaultToken) (parastart linestart : Bool),
          AddToken p tokens ⟨word, []⟩ parastart linestart
            = tokens ++ [{ NewToken word with ParaStart := parastart,
                                              LineStart := linestart }])
      ∧ ∀ oracle : GoString → GoString → Bool,
          TokenizeWords (baseWith oracle) (str "state-of-the-art")
            = some [{ NewToken (str "state-of-the-art") with LineStart := true }] := by
  have h1 : splitWord word = some ⟨word, []⟩ := by
    unfold splitWord
    rw [endPuncts_fold_none word hsuf]
    simp only [hm]
  refine ⟨h1, ?_, ?_, ?_⟩
  · intro hlen hf
    have hne : ¬ word.length = 1 := by omega
    simp [WordTokenizer, hf, wordLoop, hne, h1]
  · intro p tokens parastart linestart
    have h2 : HasSuffix ([] : GoString) [0x2C] = false := by decide
    simp [AddToken, nonwordMatch_nil, h2]
  · intro oracle
    rfl

/-- Witness for C12: the word `state-of-the-art`. -/
theorem default_split_witness :
    splitWord (str "state-of-the-art") = some ⟨str "state-of-the-art", []⟩ :=
  (default_split (str "state-of-the-art") (by decide) (by decide)).1

/-! ## The multi-character-punctuation step on single-byte words -/

theorem goSlice_take {α : Type} (s : List α) (k : Nat) (h : k ≤ s.length) :
    goSlice s 0 (k : Int) = some (s.take k) := by
  rw [goSlice_eq_some s 0 k (le_refl _) (by omega) (by omega)]
  simp

theorem goSlice_drop {α : Type} (s : List α) (k : Nat) (h : k ≤ s.length) :
    goSlice s (k : Int) s.length = some (s.drop k) := by
  rw [goSlice_eq_some s k s.length (by omega) (by omega) (le_refl _)]
  simp

theorem goSlice_dropLast {α : Type} (s : List α) (h : 1 ≤ s.length) :
    goSlice s 0 ((s.length : Int) - 1) = some s.dropLast := by
  have h1 : ((s.length : Int) - 1) = ((s.length - 1 : Nat) : Int) := by omega
  rw [h1, goSlice_take s (s.length - 1) (by omega), List.dropLast_eq_take]

/-- C19: on a word of single-byte characters in which `ReMultiCharPunct` matches,
leftmost at [s, e), the pair depends on that match alone (whatever the loop over
the trailing punctuations left): the word without its last character and a
period when the word ends in a period and e differs from the length or s + e
equals it; else the word cut at s when e is the length; else the word cut at
e. -/
theorem multi_decides (word : GoString) (s e : Nat) (hascii : ∀ b ∈ word, b < 0x80)
    (hlen : 2 ≤ word.length)
    (hm : FindStringIndex ReMultiCharPunctAt word = some (s, e)) :
    splitWord word = some
      (if HasSuffix word [0x2E] = true ∧ (e ≠ word.length ∨ s + e = word.length) then
        ⟨word.dropLast, [0x2E]⟩
      else if e = word.length then ⟨word.take s, word.drop s⟩
      else ⟨word.take e, word.drop e⟩) := by
  have hb := findFrom_bounds ReMultiCharPunctAt ReMultiCharPunctAt_le word 0 s e hm
  obtain ⟨⟨first, second⟩, hr⟩ := foldlM_isSome (endPunctStep word (toRunes word)) endPuncts
    (word, []) (fun x hx a => endPunctStep_isSome word x hx a)
  unfold splitWord
  rw [hr]
  simp only [hm, multiSplit, toRunes_ascii word hascii]
  rw [goSlice_dropLast word (by omega), goSlice_take word s (by omega),
    goSlice_drop word s (by omega), goSlice_take word e (by omega),
    goSlice_drop word e (by omega)]
  split_ifs <;> rfl

/-- Witness for C19: the word `Wait...`, matched at [4, 7). -/
theorem multi_decides_witness :
    splitWord (str "Wait...") = some
      (if HasSuffix (str "Wait...") [0x2E] = true
          ∧ (7 ≠ (str "Wait...").length ∨ 4 + 7 = (str "Wait...").length) then
        ⟨(str "Wait...").dropLast, [0x2E]⟩
      else if 7 = (str "Wait...").length then ⟨(str "Wait...").take 4, (str "Wait...").drop 4⟩
      else ⟨(str "Wait...").take 7, (str "Wait...").drop 7⟩) :=
  multi_decides (str "Wait...") 4 7 (by decide) (by decide) (by decide)

/-! ## The comma rule -/

theorem HasSuffix_concat_ne (pre init : GoString) (c d : Nat) (h : d ≠ c) :
    HasSuffix (pre ++ [c]) (init ++ [d]) = false := by
  cases hq : HasSuffix (pre ++ [c]) (init ++ [d]) with
  | false => rfl
  | true =>
    exfalso
    obtain ⟨t, ht⟩ := List.isSuffixOf_iff_suffix.mp hq
    rw [← List.append_assoc] at ht
    have := List.append_inj_right' ht rfl
    simp at this
    exact h this

theorem EncodeRune_last (r : Nat) :
    ∃ l x, EncodeRune r = l ++ [x] ∧ (x < 0x80 → l = [] ∧ x = r) := by
  unfold EncodeRune
  split_ifs
  · exact ⟨[], r, rfl, fun _ => ⟨rfl, rfl⟩⟩
  · exact ⟨[0xC0 + r / 64], 0x80 + r % 64, rfl, fun h => by omega⟩
  · exact ⟨[0xEF, 0xBF], 0xBD, rfl, fun h => by omega⟩
  · exact ⟨[0xE0 + r / 4096, 0x80 + (r / 64) % 64], 0x80 + r % 64, rfl, fun h => by omega⟩
  · exact ⟨[0xF0 + r / 262144, 0x80 + (r / 4096) % 64, 0x80 + (r / 64) % 64],
      0x80 + r % 64, rfl, fun h => by omega⟩

theorem ofRunes_append (a b : List Nat) : ofRunes (a ++ b) = ofRunes a ++ ofRunes b := by
  simp [ofRunes, List.flatMap_append]

/-- In a valid string that ends in a single-byte character `c`, the last rune is
`c` and the runes before it encode the string without its last byte. -/
theorem runes_of_valid_concat (pre : GoString) (c : Nat) (hc : c < 0x80)
    (hv : validUTF8 (pre ++ [c])) :
    ∃ init, toRunes (pre ++ [c]) = init ++ [c] ∧ ofRunes init = pre := by
  have hne : toRunes (pre ++ [c]) ≠ [] := by
    intro h
    have := toRunes_length_pos (pre ++ [c]) (by simp)
    rw [h] at this
    simp at this
  obtain ⟨init, r, hir⟩ : ∃ init r, toRunes (pre ++ [c]) = init ++ [r] :=
    ⟨_, _, (List.dropLast_append_getLast hne).symm⟩
  obtain ⟨l, x, hlx, hx⟩ := EncodeRune_last r
  unfold validUTF8 at hv
  rw [hir, ofRunes_append] at hv
  have h1 : ofRunes [r] = l ++ [x] := by simp [ofRunes, hlx]
  rw [h1, ← List.append_assoc] at hv
  have h2 := List.append_inj_right' hv rfl
  have h3 := List.append_inj_left' hv rfl
  have hxc : x = c := by simpa using h2
  obtain ⟨hl, hxr⟩ := hx (by omega)
  subst hl
  refine ⟨init, ?_, by simpa using h3⟩
  rw [hir, ← hxr, hxc]

/-- C11 as stated fails: the Latin-1 bytes of `café,` (63 61 66 E9 2C) end in a
comma and hold no match of the pattern, but the first half comes back through
`[]rune`, where the byte E9 has become U+FFFD: it is not the word without its
comma. -/
theorem comma_split_counterexample :
    HasSuffix [0x63, 0x61, 0x66, 0xE9, 0x2C] [0x2C] = true
      ∧ FindStringIndex ReMultiCharPunctAt [0x63, 0x61, 0x66, 0xE9, 0x2C] = none
      ∧ WordTokenizer [0x63, 0x61, 0x66, 0xE9, 0x2C]
          = some [⟨[0x63, 0x61, 0x66, 0xEF, 0xBF, 0xBD], [0x2C]⟩]
      ∧ WordTokenizer [0x63, 0x61, 0x66, 0xE9, 0x2C]
          ≠ some [⟨[0x63, 0x61, 0x66, 0xE9], [0x2C]⟩] := by
  decide

/-- C11 amended: for every word that is valid UTF-8, ends with a comma and holds
no match of `ReMultiCharPunct`, the pair is (the word without its final comma,
`,`); WordTokenizer returns that pair for a word of length at least 2 that is a
field of its own; so it is for `well-known,`. -/
theorem comma_split (word : GoString) (hv : validUTF8 word)
    (hsuf : HasSuffix word [0x2C] = true)
    (hm : FindStringIndex ReMultiCharPunctAt word = none) :
    splitWord word = some ⟨word.dropLast, [0x2C]⟩
      ∧ (2 ≤ word.length → Fields word = [word] →
          WordTokenizer word = some [⟨word.dropLast, [0x2C]⟩])
      ∧ WordTokenizer (str "well-known,") = some [⟨str "well-known", str ","⟩] := by
  have h1 : splitWord word = some ⟨word.dropLast, [0x2C]⟩ := by
    obtain ⟨pre, rfl⟩ := List.isSuffixOf_iff_suffix.mp hsuf
    obtain ⟨init, hinit, hpre⟩ := runes_of_valid_concat pre 0x2C (by decide) hv
    have e1 := HasSuffix_concat_ne pre [] 0x2C 0x3A (by decide)
    have e3 := HasSuffix_concat_ne pre [] 0x2C 0x3F (by decide)
    have e4 := HasSuffix_concat_ne pre [0x3F] 0x2C 0x22 (by decide)
    have e5 := HasSuffix_concat_ne pre [0x2E] 0x2C 0x29 (by decide)
    simp only [List.nil_append, List.singleton_append] at e1 e3 e4 e5
    have g1 : goSlice (init ++ [0x2C]) 0 (((init ++ [0x2C]).length : Int) - 1) = some init := by
      rw [goSlice_dropLast _ (by simp)]
      simp
    have g2 : goSlice (init ++ [0x2C]) (((init ++ [0x2C]).length : Int) - 1)
        ((init ++ [0x2C]).length : Int) = some [0x2C] := by
      have : (((init ++ [0x2C]).length : Int) - 1) = ((init.length : Nat) : Int) := by
        simp
      rw [this, goSlice_drop _ _ (by simp)]
      simp
    have hfold : endPuncts.foldlM (endPunctStep (pre ++ [0x2C]) (toRunes (pre ++ [0x2C])))
        (pre ++ [0x2C], []) = some (pre, [0x2C]) := by
      rw [hinit]
      simp only [endPuncts, List.foldlM_cons, List.foldlM_nil, endPunctStep, e1, hsuf, e3,
        e4, e5, g1, g2]
      rw [hpre]
      simp [ofRunes, EncodeRune]
    unfold splitWord
    rw [hfold]
    simp [hm]
  refine ⟨h1, ?_, by decide⟩
  intro hlen hf
  have hne : ¬ word.length = 1 := by omega
  simp [WordTokenizer, hf, wordLoop, hne, h1]

/-- Witness for C11: the word `well-known,`. -/
theorem comma_split_witness :
    splitWord (str "well-known,") = some ⟨(str "well-known,").dropLast, [0x2C]⟩ :=
  (comma_split (str "well-known,") (by unfold validUTF8; decide) (by decide) (by decide)).1

/-! ## `PunktLanguageVars.WordTokenizer` -/

theorem dotSpaceRuns_of_head_ne (b : Nat) (rest : GoString) (h : b ≠ 0x2E) :
    dotSpaceRuns (b :: rest) = 0 := by
  cases rest with
  | nil => simp [dotSpaceRuns]
  | cons c rest => simp [dotSpaceRuns, h]

theorem reMultiCharPunctAt_of_high (b : Nat) (rest : GoString) (h : 0x80 ≤ b) :
    reMultiCharPunctAt (b :: rest) = none := by
  have h1 : b ≠ 0x2D := by omega
  have h2 : b ≠ 0x2E := by omega
  simp [reMultiCharPunctAt, reEllipsisAt, matchDotSpace, runLength, h1, h2,
    dotSpaceRuns_of_head_ne b rest h2]

/-- Where the joined non-word pattern has no match, the multi-character pattern,
one of its alternatives, has none either. -/
theorem multi_none_of_nonword_none (p : PunktLanguageVars) :
    ∀ (s : GoString) (k i : Nat), (∀ c ∈ s.take k, 0x80 ≤ c) →
      findFromRunes p.nonwordAt k i s = none → findFrom reMultiCharPunctAt i s = none := by
  intro s
  induction s with
  | nil => intro k i _ _; rfl
  | cons b rest ih =>
    intro k i hk h
    cases k with
    | zero =>
      simp only [findFromRunes] at h
      cases hq : p.nonwordAt (b :: rest) with
      | some n => rw [hq] at h; simp at h
      | none =>
        rw [hq] at h
        have hmulti : reMultiCharPunctAt (b :: rest) = none := by
          unfold PunktLanguageVars.nonwordAt at hq
          split_ifs at hq
          exact hq
        simp only [findFrom, hmulti]
        exact ih _ _ (DecodeRune_skipped b rest) h
    | succ k =>
      simp only [findFromRunes] at h
      have hb : 0x80 ≤ b := hk b (by simp)
      simp only [findFrom, reMultiCharPunctAt_of_high b rest hb]
      exact ih k _ (fun c hc => hk c (by simp [hc])) h

/-- C18: in `hello` the non-word pattern has no match and there is no final
comma; `PunktLanguageVars.WordTokenizer` returns the pair (`h`, `ello`) where the
package-level WordTokenizer returns (`hello`, empty), and for `école` it cuts the
two-byte first letter in half, returning (C3, A9 `cole`). -/
theorem languageVars_first_byte :
    findFromRunes NewPunktLanguageVars.nonwordAt 0 0 (str "hello") = none
      ∧ HasSuffix (str "hello") [0x2C] = false
      ∧ NewPunktLanguageVars.WordTokenizer (str "hello") = some [⟨str "h", str "ello"⟩]
      ∧ NewPunktLanguageVars.WordTokenizer (str "hello") ≠ some [⟨str "hello", []⟩]
      ∧ WordTokenizer (str "hello") = some [⟨str "hello", []⟩]
      ∧ str "école" = [0xC3, 0xA9, 0x63, 0x6F, 0x6C, 0x65]
      ∧ NewPunktLanguageVars.WordTokenizer (str "école")
          = some [⟨[0xC3], [0xA9, 0x63, 0x6F, 0x6C, 0x65]⟩] := by
  decide

/-- What lines 110-116 of `language_vars.go` leave when nothing later overrides
them: for a word of length at least 2 without match of the non-word pattern and
without final comma, the pair is the first byte of the word and the rest. -/
theorem firstByte_split (p : PunktLanguageVars) (word : GoString) (hlen : 2 ≤ word.length)
    (hn : findFromRunes p.nonwordAt 0 0 word = none)
    (hc : HasSuffix word [0x2C] = false) :
    p.splitWord word = some ⟨word.take 1, word.drop 1⟩
      ∧ (Fields word = [word] →
          p.WordTokenizer word = some [⟨word.take 1, word.drop 1⟩]) := by
  have hmulti : FindStringIndex reMultiCharPunctAt word = none :=
    multi_none_of_nonword_none p word 0 0 (by simp) hn
  have h1 : p.splitWord word = some ⟨word.take 1, word.drop 1⟩ := by
    have g1 := goSlice_take word 1 (by omega)
    have g2 := goSlice_drop word 1 (by omega)
    simp only [Nat.cast_one] at g1 g2
    simp only [PunktLanguageVars.splitWord, PunktLanguageVars.firstByteStep, g1, g2,
      PunktLanguageVars.punctStep, hn, PunktLanguageVars.commaStep, hc,
      PunktLanguageVars.multiStep, hmulti]
    simp
  refine ⟨h1, ?_⟩
  intro hf
  have hne : ¬ word.length = 1 := by omega
  simp [PunktLanguageVars.WordTokenizer, hf, PunktLanguageVars.wordLoop, hne, h1]

/-! ## Line starts -/

theorem AddToken_append (p : Base) (tokens : List DefaultToken) (pairTok : PairToken)
    (parastart linestart : Bool) :
    AddToken p tokens pairTok parastart linestart
      = tokens ++ AddToken p [] pairTok parastart linestart := by
  unfold AddToken
  split_ifs <;> simp

theorem lineLoop_no_lineStart (p : Base) : ∀ (prs : List PairToken) (index : Nat)
    (tokens : List DefaultToken) (parastart : Bool), index ≠ 0 →
    ∃ extra ps, lineLoop p index prs (tokens, parastart) = (tokens ++ extra, ps)
      ∧ ∀ u ∈ extra, u.LineStart = false := by
  intro prs
  induction prs with
  | nil => intro index tokens parastart _; exact ⟨[], parastart, by simp [lineLoop]⟩
  | cons pr rest ih =>
    intro index tokens parastart hi
    obtain ⟨t, ex1, h1, _, h3, h4⟩ := AddToken_shape p tokens pr parastart false
    obtain ⟨ex2, ps, h5, h6⟩ := ih (index + 1) (tokens ++ t :: ex1) parastart (by omega)
    refine ⟨t :: ex1 ++ ex2, ps, ?_, ?_⟩
    · unfold lineLoop
      rw [if_neg hi, h1, h5]
      simp
    · intro u hu
      simp only [List.cons_append, List.mem_cons, List.mem_append] at hu
      rcases hu with rfl | hu | hu
      · exact h3
      · exact (h4 u hu).2
      · exact h6 u hu

/-- The tokens that the pairs of one line add: none for no pair; otherwise the
first token made from the first pair, with LineStart true, then tokens with
LineStart false. -/
theorem lineLoop_group (p : Base) (prs : List PairToken) (tokens : List DefaultToken)
    (parastart : Bool) :
    ∃ g ps, lineLoop p 0 prs (tokens, parastart) = (tokens ++ g, ps)
      ∧ ((prs = [] ∧ g = [])
          ∨ ∃ pr rest t ts, prs = pr :: rest ∧ g = t :: ts
              ∧ (AddToken p [] pr parastart true).head? = some t
              ∧ t.LineStart = true ∧ ∀ u ∈ ts, u.LineStart = false) := by
  cases prs with
  | nil => exact ⟨[], parastart, by simp [lineLoop], Or.inl ⟨rfl, rfl⟩⟩
  | cons pr rest =>
    obtain ⟨t, ex1, h1, _, h3, h4⟩ := AddToken_shape p [] pr parastart true
    obtain ⟨ex2, ps, h5, h6⟩ := lineLoop_no_lineStart p rest 1 (tokens ++ t :: ex1) false
      (by omega)
    refine ⟨t :: ex1 ++ ex2, ps, ?_, Or.inr ⟨pr, rest, t, ex1 ++ ex2, rfl, rfl, ?_, h3, ?_⟩⟩
    · unfold lineLoop
      rw [if_pos rfl, AddToken_append, h1]
      simp only [List.nil_append, zero_add]
      rw [h5]
      simp
    · rw [h1]; simp
    · intro u hu
      rcases List.mem_append.mp hu with hu | hu
      · exact (h4 u hu).2
      · exact h6 u hu

theorem linesLoop_groups (p : Base) : ∀ (lines : List GoString) (tokens : List DefaultToken)
    (parastart : Bool),
    ∃ groups, linesLoop p lines (tokens, parastart) = some (tokens ++ groups.flatten)
      ∧ List.Forall₂ (lineStartGroup p) lines groups := by
  intro lines
  induction lines with
  | nil => intro tokens parastart; exact ⟨[], by simp [linesLoop], List.Forall₂.nil⟩
  | cons line rest ih =>
    intro tokens parastart
    by_cases hb : trimByte 0x20 line = [] ∨ line = [0x20]
    · obtain ⟨groups, h1, h2⟩ := ih tokens true
      refine ⟨[] :: groups, ?_, List.Forall₂.cons (Or.inl ⟨hb, rfl⟩) h2⟩
      unfold linesLoop
      rw [if_pos hb, h1]
      simp
    · obtain ⟨prs, hprs⟩ := WordTokenizer_isSome line
      obtain ⟨g, ps, h3, h4⟩ := lineLoop_group p prs tokens parastart
      obtain ⟨groups, h1, h2⟩ := ih (tokens ++ g) ps
      refine ⟨g :: groups, ?_, List.Forall₂.cons (Or.inr ⟨hb, prs, hprs, ?_⟩) h2⟩
      · unfold linesLoop
        rw [if_neg hb]
        simp only [hprs, h3, h1]
        simp
      · rcases h4 with h4 | ⟨pr, rest, t, ts, e1, e2, e3, e4, e5⟩
        · exact Or.inl h4
        · exact Or.inr ⟨pr, rest, t, ts, parastart, e1, e2, e3, e4, e5⟩

/-- C16: for every text TokenizeWords returns the concatenation of one group of
tokens per physical line; a line that is skipped as blank or yields no word pair
has an empty group, and in every other group the first token, the first made
from the line's first word pair, has LineStart true and all the others,
split-off second halves included, have LineStart false. -/
theorem TokenizeWords_lineStart (p : Base) (text : GoString) :
    ∃ groups, TokenizeWords p text = some groups.flatten
      ∧ List.Forall₂ (lineStartGroup p) (splitByte 0x0A text) groups := by
  obtain ⟨groups, h1, h2⟩ := linesLoop_groups p (splitByte 0x0A text) [] false
  exact ⟨groups, by simpa [TokenizeWords] using h1, h2⟩

/-! ## No lone period among the tokens of a single-byte text -/

theorem fieldsLoop_ascii : ∀ (s cur : GoString), (∀ b ∈ s, b < 0x80) →
    (∀ b ∈ cur, b < 0x80 ∧ IsSpace b = false) →
    ∀ w ∈ fieldsLoop cur (s.map (fun b => (b, [b]))), ∀ b ∈ w,
      b < 0x80 ∧ IsSpace b = false := by
  intro s
  induction s with
  | nil =>
    intro cur _ hcur w hw
    simp only [List.map_nil, fieldsLoop] at hw
    split_ifs at hw
    · simp at hw
    · simp only [List.mem_singleton] at hw
      subst hw
      exact hcur
  | cons c rest ih =>
    intro cur hs hcur w hw
    have hrest : ∀ b ∈ rest, b < 0x80 := fun b hb => hs b (List.mem_cons_of_mem _ hb)
    simp only [List.map_cons, fieldsLoop] at hw
    by_cases hsp : IsSpace c = true
    · rw [if_pos hsp] at hw
      rcases List.mem_append.mp hw with hw | hw
      · split_ifs at hw
        · simp at hw
        · simp only [List.mem_singleton] at hw
          subst hw
          exact hcur
      · exact ih [] hrest (by simp) w hw
    · rw [if_neg hsp] at hw
      refine ih (cur ++ [c]) hrest ?_ w hw
      intro b hb
      rcases List.mem_append.mp hb with hb | hb
      · exact hcur b hb
      · simp only [List.mem_singleton] at hb
        subst hb
        exact ⟨hs b (by simp), by simpa using hsp⟩

/-- The words of a single-byte text are single-byte and hold no white space. -/
theorem Fields_ascii (text : GoString) (h : ∀ b ∈ text, b < 0x80) :
    ∀ w ∈ Fields text, ∀ b ∈ w, b < 0x80 ∧ IsSpace b = false := by
  unfold Fields runeChunks
  rw [runeChunksAux_ascii text h]
  exact fieldsLoop_ascii text [] h (by simp)

theorem splitByte_mem (sep : Nat) : ∀ (s : GoString), ∀ l ∈ splitByte sep s, ∀ b ∈ l, b ∈ s := by
  intro s
  induction s with
  | nil =>
    intro l hl b hb
    simp only [splitByte, List.mem_singleton] at hl
    subst hl
    exact hb
  | cons c rest ih =>
    intro l hl b hb
    unfold splitByte at hl
    split_ifs at hl
    · rcases List.mem_cons.mp hl with rfl | hl
      · simp at hb
      · exact List.mem_cons_of_mem _ (ih l hl b hb)
    · cases hq : splitByte sep rest with
      | nil => exact absurd hq (splitByte_ne_nil sep rest)
      | cons l0 ls =>
        rw [hq] at hl ih
        simp only at hl
        rcases List.mem_cons.mp hl with rfl | hl
        · rcases List.mem_cons.mp hb with rfl | hb
          · simp
          · exact List.mem_cons_of_mem _ (ih l0 (by simp) b hb)
        · exact List.mem_cons_of_mem _ (ih l (List.mem_cons_of_mem _ hl) b hb)

/-- Every pair that the word loop appends is the pair of one of the words, of
length other than 1. -/
theorem wordLoop_mem : ∀ (words : List GoString) (tokens r : List PairToken),
    wordLoop words tokens = some r →
    ∀ pr ∈ r, pr ∈ tokens ∨ ∃ w ∈ words, w.length ≠ 1 ∧ splitWord w = some pr := by
  intro words
  induction words with
  | nil =>
    intro tokens r h pr hpr
    simp only [wordLoop, Option.some.injEq] at h
    subst h
    exact Or.inl hpr
  | cons word rest ih =>
    intro tokens r h pr hpr
    unfold wordLoop at h
    split_ifs at h with h1
    · rcases ih tokens r h pr hpr with h2 | ⟨w, hw, h3⟩
      · exact Or.inl h2
      · exact Or.inr ⟨w, List.mem_cons_of_mem _ hw, h3⟩
    · cases hq : splitWord word with
      | none => rw [hq] at h; simp at h
      | some t =>
        rw [hq] at h
        rcases ih _ r h pr hpr with h2 | ⟨w, hw, h3⟩
        · rcases List.mem_append.mp h2 with h2 | h2
          · exact Or.inl h2
          · simp only [List.mem_singleton] at h2
            subst h2
            exact Or.inr ⟨word, by simp, h1, hq⟩
        · exact Or.inr ⟨w, List.mem_cons_of_mem _ hw, h3⟩

theorem DecodeRune_width_pos (b : Nat) (rest : GoString) : 1 ≤ (DecodeRune (b :: rest)).2 := by
  unfold DecodeRune
  simp only
  repeat' split
  all_goals simp

/-- Every match of `ReMultiCharPunct` spans at least two bytes. -/
theorem ReMultiCharPunctAt_ge (s : GoString) (n : Nat) (h : ReMultiCharPunctAt s = some n) :
    2 ≤ n := by
  unfold ReMultiCharPunctAt at h
  cases h1 : reMultiCharPunctAt s with
  | some m =>
    rw [h1] at h
    simp only [Option.some.injEq] at h
    subst h
    unfold reMultiCharPunctAt reEllipsisAt matchDotSpace at h1
    split_ifs at h1 <;> simp only [Option.some.injEq] at h1 <;> omega
  | none =>
    rw [h1] at h
    match s with
    | [] => simp [matchDotNonSpace] at h
    | [_] => simp [matchDotNonSpace] at h
    | a :: b :: rest =>
      simp only [matchDotNonSpace] at h
      split_ifs at h
      have := DecodeRune_width_pos b rest
      simp only [Option.some.injEq] at h
      omega

/-- A period followed by a single-byte character that is not white space is the
start of a match. -/
theorem ReMultiCharPunctAt_dot (c : Nat) (rest : GoString) (hc : c < 0x80)
    (hsp : reSpace c = false) : ∃ n, ReMultiCharPunctAt (0x2E :: c :: rest) = some n := by
  unfold ReMultiCharPunctAt
  cases h1 : reMultiCharPunctAt (0x2E :: c :: rest) with
  | some m => exact ⟨m, rfl⟩
  | none =>
    refine ⟨1 + 1, ?_⟩
    simp [matchDotNonSpace, DecodeRune_ascii c rest hc, hsp]

theorem reSpace_of_IsSpace (c : Nat) (h : IsSpace c = false) : reSpace c = false := by
  unfold IsSpace at h
  unfold reSpace
  simp only [decide_eq_false_iff_not, not_or] at h ⊢
  omega

theorem splitWord_eq_multiSplit_ascii (word : GoString) (s e : Nat)
    (hascii : ∀ b ∈ word, b < 0x80)
    (hm : FindStringIndex ReMultiCharPunctAt word = some (s, e)) :
    splitWord word = multiSplit word word s e := by
  obtain ⟨⟨first, second⟩, hr⟩ := foldlM_isSome (endPunctStep word (toRunes word)) endPuncts
    (word, []) (fun x hx a => endPunctStep_isSome word x hx a)
  unfold splitWord
  rw [hr]
  simp only [hm, toRunes_ascii word hascii]

/-- On a single-byte word without white space and of length other than 1, the
halves of the pair concatenate to the word, and the first half is a lone period
only if the second is one too. -/
theorem splitWord_period (word : GoString) (t : PairToken)
    (hw : ∀ b ∈ word, b < 0x80 ∧ IsSpace b = false) (hlen : word.length ≠ 1)
    (ht : splitWord word = some t) :
    t.First ++ t.Second = word ∧ (t.First = [0x2E] → t.Second = [0x2E]) := by
  have hascii : ∀ b ∈ word, b < 0x80 := fun b hb => (hw b hb).1
  obtain ⟨t2, ht2, hcat⟩ := splitWord_concat_ascii word hascii
  rw [ht] at ht2
  simp only [Option.some.injEq] at ht2
  subst ht2
  refine ⟨hcat, ?_⟩
  intro hf
  cases hsec : t.Second with
  | nil =>
    exfalso
    rw [hf, hsec] at hcat
    rw [← hcat] at hlen
    simp at hlen
  | cons c rest =>
    rw [hf, hsec] at hcat
    have hc := hw c (by rw [← hcat]; simp)
    obtain ⟨n, hn⟩ := ReMultiCharPunctAt_dot c rest hc.1 (reSpace_of_IsSpace c hc.2)
    have hn2 := ReMultiCharPunctAt_ge _ _ hn
    have hnle := ReMultiCharPunctAt_le _ _ hn
    have hword : word = 0x2E :: c :: rest := by rw [← hcat]; rfl
    have hm : FindStringIndex ReMultiCharPunctAt word = some (0, 0 + n) := by
      rw [hword]
      unfold FindStringIndex findFrom
      rw [hn]
    have hsplit := splitWord_eq_multiSplit_ascii word 0 (0 + n) hascii hm
    rw [ht] at hsplit
    have hlen2 : n ≤ word.length := by rw [← hcat]; simpa using hnle
    unfold multiSplit at hsplit
    simp only [zero_add] at hsplit
    split_ifs at hsplit with h1 h2
    · rw [goSlice_dropLast word (by omega)] at hsplit
      simp only [Option.some.injEq] at hsplit
      rw [← hsec, hsplit]
    · exfalso
      rw [goSlice_take word 0 (by omega), goSlice_drop word 0 (by omega)] at hsplit
      simp only [Option.some.injEq] at hsplit
      rw [hsplit] at hf
      simp at hf
    · exfalso
      rw [goSlice_take word n hlen2, goSlice_drop word n hlen2] at hsplit
      simp only [Option.some.injEq] at hsplit
      rw [hsplit] at hf
      have := congrArg List.length hf
      simp at this
      omega

theorem nonwordMatch_period (p : Base) (hcfg : 0x2E ∉ p.reNonWordChars) :
    nonwordMatch p [0x2E] = false := by
  have h1 : toRunes [0x2E] = [0x2E] := by decide
  have h2 : FindStringIndex ReMultiCharPunctAt [0x2E] = none := by decide
  simp [nonwordMatch, h1, h2, hcfg]

theorem AddToken_no_lone_period (p : Base) (hcfg : 0x2E ∉ p.reNonWordChars)
    (tokens : List DefaultToken) (pr : PairToken) (parastart linestart : Bool)
    (hcat : pr.First ++ pr.Second ≠ [0x2E])
    (hfirst : pr.First = [0x2E] → pr.Second = [0x2E])
    (htoks : ∀ t ∈ tokens, t.Tok ≠ [0x2E]) :
    ∀ t ∈ AddToken p tokens pr parastart linestart, t.Tok ≠ [0x2E] := by
  intro t ht
  unfold AddToken at ht
  split_ifs at ht with hsplit
  · have hsec : pr.Second ≠ [0x2E] := by
      intro h
      rw [h, nonwordMatch_period p hcfg] at hsplit
      simp [HasSuffix, List.isSuffixOf] at hsplit
    simp only [List.mem_append, List.mem_cons, List.mem_singleton, List.not_mem_nil,
      or_false] at ht
    rcases ht with ht | rfl | rfl
    · exact htoks t ht
    · exact fun h => hsec (hfirst h)
    · exact hsec
  · simp only [List.mem_append, List.mem_singleton] at ht
    rcases ht with ht | rfl
    · exact htoks t ht
    · exact hcat

theorem lineLoop_forall (p : Base) (Q : DefaultToken → Prop) (P : PairToken → Prop)
    (hAdd : ∀ toks pr ps ls, P pr → (∀ t ∈ toks, Q t) → ∀ t ∈ AddToken p toks pr ps ls, Q t) :
    ∀ (prs : List PairToken) (index : Nat) (tokens : List DefaultToken) (parastart : Bool),
      (∀ pr ∈ prs, P pr) → (∀ t ∈ tokens, Q t) →
      ∀ t ∈ (lineLoop p index prs (tokens, parastart)).1, Q t := by
  intro prs
  induction prs with
  | nil => intro index tokens parastart _ h; simpa [lineLoop] using h
  | cons pr rest ih =>
    intro index tokens parastart hP h
    have hrest : ∀ x ∈ rest, P x := fun x hx => hP x (List.mem_cons_of_mem _ hx)
    unfold lineLoop
    split_ifs
    · exact ih _ _ _ hrest (hAdd tokens pr parastart true (hP pr (by simp)) h)
    · exact ih _ _ _ hrest (hAdd tokens pr parastart false (hP pr (by simp)) h)

theorem linesLoop_forall (p : Base) (Q : DefaultToken → Prop) (P : PairToken → Prop)
    (hAdd : ∀ toks pr ps ls, P pr → (∀ t ∈ toks, Q t) → ∀ t ∈ AddToken p toks pr ps ls, Q t) :
    ∀ (lines : List GoString) (tokens : List DefaultToken) (parastart : Bool),
      (∀ line ∈ lines, ∀ prs, WordTokenizer line = some prs → ∀ pr ∈ prs, P pr) →
      (∀ t ∈ tokens, Q t) →
      ∃ out, linesLoop p lines (tokens, parastart) = some out ∧ ∀ t ∈ out, Q t := by
  intro lines
  induction lines with
  | nil => intro tokens parastart _ h; exact ⟨tokens, rfl, h⟩
  | cons line rest ih =>
    intro tokens parastart hP h
    have hrest : ∀ l ∈ rest, ∀ prs, WordTokenizer l = some prs → ∀ pr ∈ prs, P pr :=
      fun l hl => hP l (List.mem_cons_of_mem _ hl)
    unfold linesLoop
    split_ifs
    · exact ih tokens true hrest h
    · obtain ⟨prs, hprs⟩ := WordTokenizer_isSome line
      simp only [hprs]
      have h1 := lineLoop_forall p Q P hAdd prs 0 tokens parastart
        (hP line (by simp) prs hprs) h
      cases hq : lineLoop p 0 prs (tokens, parastart) with
      | mk toks ps =>
        rw [hq] at h1
        exact ih toks ps hrest h1

/-- C20: when the period is not among the non-word characters (it is not in the
default class), TokenizeWords returns, for every text of single-byte characters,
a token list in which no token has the text `.`. -/
theorem TokenizeWords_no_lone_period (p : Base) (hcfg : 0x2E ∉ p.reNonWordChars)
    (text : GoString) (hascii : ∀ b ∈ text, b < 0x80) :
    ∃ tokens, TokenizeWords p text = some tokens ∧ ∀ t ∈ tokens, t.Tok ≠ [0x2E] := by
  unfold TokenizeWords
  apply linesLoop_forall p (fun t => t.Tok ≠ [0x2E])
    (fun pr => pr.First ++ pr.Second ≠ [0x2E] ∧ (pr.First = [0x2E] → pr.Second = [0x2E]))
  · intro toks pr ps ls hP htoks
    exact AddToken_no_lone_period p hcfg toks pr ps ls hP.1 hP.2 htoks
  · intro line hline prs hprs pr hpr
    have hl : ∀ b ∈ line, b < 0x80 := fun b hb => hascii b (splitByte_mem _ _ line hline b hb)
    rcases wordLoop_mem (Fields line) [] prs hprs pr hpr with h | ⟨w, hw, hlen, hsw⟩
    · simp at h
    · obtain ⟨hcat, hfirst⟩ := splitWord_period w pr (Fields_ascii line hl w hw) hlen hsw
      refine ⟨?_, hfirst⟩
      rw [hcat]
      intro h
      rw [h] at hlen
      simp at hlen
  · simp

/-- Witness for C20: the text `Dr. Smith said .5 is ... enough.` under the
default configuration. -/
theorem TokenizeWords_no_lone_period_witness :
    ∃ tokens, TokenizeWords (baseWith (fun _ _ => false))
        (str "Dr. Smith said .5 is ... enough.") = some tokens
      ∧ ∀ t ∈ tokens, t.Tok ≠ [0x2E] :=
  TokenizeWords_no_lone_period (baseWith (fun _ _ => false)) (by decide)
    (str "Dr. Smith said .5 is ... enough.") (by decide)

end Punkt
